import Mathlib

/-!
Shallow embedding of the `obsidian-logseq-namespace-injector` plugin
(`src/unnamed/part_001`, the v2.0 plugin source; `src/main.ts` is the older v1).
Strings are modelled as Lean `String`/`List Char`; JavaScript string methods
(`replace` with a string pattern, `replaceAll`-style substitution, the regexes
`/\/+/g`, `/^\/|\/$/g`, `/^\s*namespace\s*::\s*.+$/m`, `toLowerCase`, `includes`)
are modelled character by character below.  `$`-patterns in a `replace`
replacement string are not modelled (replacement text is treated literally),
and `toLowerCase` is modelled on the ASCII range; no claim depends on either.
-/

namespace LogseqNS

/-! ## Generic string helpers (models of the JS string operations used) -/

/-- Model of `haystack.includes(needle)` on character lists. -/
def containsSub (pat : List Char) : List Char → Bool
  | [] => List.isPrefixOf pat []
  | c :: rest => List.isPrefixOf pat (c :: rest) || containsSub pat rest

/-- `pat` occurs in `l` starting at index `i`. -/
def occursAt (pat l : List Char) (i : Nat) : Prop :=
  List.isPrefixOf pat (l.drop i) = true

/-- Number of (possibly overlapping) start positions at which `pat` occurs. -/
def countOcc (pat : List Char) : List Char → Nat
  | [] => 0
  | c :: rest => (if List.isPrefixOf pat (c :: rest) then 1 else 0) + countOcc pat rest

/-- Model of JS `s.replace(pat, repl)` with a *string* pattern: replaces only the
leftmost occurrence of `pat` (replacement text taken literally). -/
def jsReplaceFirst (pat repl : List Char) : List Char → List Char
  | [] => []
  | c :: rest =>
    if List.isPrefixOf pat (c :: rest) then repl ++ (c :: rest).drop pat.length
    else c :: jsReplaceFirst pat repl rest

/-- Model of replacing every (non-overlapping, left-to-right) occurrence of
`pat` by `repl`; used only for the spec-side reading of "substitute". -/
def jsReplaceAll (pat repl : List Char) : List Char → List Char
  | [] => []
  | c :: rest =>
    if h : pat ≠ [] ∧ List.isPrefixOf pat (c :: rest) then
      repl ++ jsReplaceAll pat repl ((c :: rest).drop pat.length)
    else c :: jsReplaceAll pat repl rest
termination_by l => l.length
decreasing_by
  · simp only [List.length_drop, List.length_cons]
    have : 0 < pat.length := List.length_pos.mpr h.1
    omega
  · simp

/-- Second half of the model of `namespace.replace(/\/+/g, '/')`: `prev` is the
previously emitted character; a `'/'` directly after a `'/'` is dropped. -/
def collapseAfter (prev : Char) : List Char → List Char
  | [] => []
  | c :: rest =>
    if prev = '/' && c = '/' then collapseAfter prev rest
    else c :: collapseAfter c rest

/-- Model of `namespace.replace(/\/+/g, '/')`: every maximal run of slashes is
collapsed to a single slash. -/
def collapseSlashes : List Char → List Char
  | [] => []
  | c :: rest => c :: collapseAfter c rest

/-- Model of the `^\/` alternative of `namespace.replace(/^\/|\/$/g, '')`:
drops a single leading slash. -/
def dropLeadSlash (l : List Char) : List Char :=
  match l with
  | [] => []
  | c :: rest => if c = '/' then rest else c :: rest

/-- Model of the `\/$` alternative of `namespace.replace(/^\/|\/$/g, '')`:
drops a single trailing slash. -/
def dropTrailSlash (l : List Char) : List Char :=
  match l.getLast? with
  | some c => if c = '/' then l.dropLast else l
  | none => l

/-- Model of `namespace.replace(/^\/|\/$/g, '')` (the `g`-flagged regex matches
at most one leading and one trailing slash). -/
def stripEdgeSlashes (l : List Char) : List Char :=
  dropTrailSlash (dropLeadSlash l)

/-- ASCII model of `String.prototype.toLowerCase` (all pattern and path
characters relevant to the claims are ASCII). -/
def lowerChar (c : Char) : Char :=
  if 'A' ≤ c ∧ c ≤ 'Z' then Char.ofNat (c.toNat + 32) else c

/-! ## Model of the marker regex `/^\s*namespace\s*::\s*.+$/m`

JavaScript semantics: `\s` matches Unicode whitespace (including line
terminators), `.` matches anything except a line terminator, `^`/`$` with the
`m` flag match at the start/end of the input and after/before any line
terminator.  `test` asks whether a match exists anywhere. -/

/-- JS line terminators (`\\n`, `\\r`, U+2028, U+2029). -/
def isLineTerm (c : Char) : Bool :=
  c = '\n' || c = '\r' || c.toNat = 0x2028 || c.toNat = 0x2029

/-- JS `\\s` character class (by Unicode code point). -/
def isJsSpace (c : Char) : Bool :=
  c = ' ' || c = '\t' || c = '\n' || c = '\x0b' || c = '\x0c' || c = '\r' ||
  c.toNat = 0xa0 || c.toNat = 0x1680 ||
  (0x2000 ≤ c.toNat && c.toNat ≤ 0x200a) ||
  c.toNat = 0x2028 || c.toNat = 0x2029 || c.toNat = 0x202f ||
  c.toNat = 0x205f || c.toNat = 0x3000 || c.toNat = 0xfeff

/-- Match a literal string, returning the rest of the input on success. -/
def matchLit : List Char → List Char → Option (List Char)
  | [], l => some l
  | _ :: _, [] => none
  | p :: ps, c :: cs => if c = p then matchLit ps cs else none

/-- Match `\s*.+$` (in multiline mode `.*$` always succeeds by consuming up to
the end of the current line, so `\s*.+$` succeeds iff after skipping some
whitespace a non-line-terminator character remains). -/
def matchTail : List Char → Bool
  | [] => false
  | c :: rest => !isLineTerm c || (isJsSpace c && matchTail rest)

/-- Match `\s*` and then continue with `f` (nondeterministic skip). -/
def wsThen (f : List Char → Bool) : List Char → Bool
  | [] => f []
  | c :: rest => f (c :: rest) || (isJsSpace c && wsThen f rest)

/-- Match `::\s*.+$`. -/
def matchColons (l : List Char) : Bool :=
  match matchLit [':', ':'] l with
  | some rest => matchTail rest
  | none => false

/-- Match `namespace\s*::\s*.+$`. -/
def matchNsAt (l : List Char) : Bool :=
  match matchLit ("namespace".toList) l with
  | some rest => wsThen matchColons rest
  | none => false

/-- Match the whole pattern `\s*namespace\s*::\s*.+$` at the current position. -/
def matchAt (l : List Char) : Bool :=
  wsThen matchNsAt l

/-- Try `matchAt` at every position directly after a line terminator. -/
def scanAfter : List Char → Bool
  | [] => false
  | c :: rest => (isLineTerm c && matchAt rest) || scanAfter rest

/-- `regex.test(content)` for `/^\s*namespace\s*::\s*.+$/m` on a char list:
a match may start at the start of the input or after any line terminator. -/
def hnmList (l : List Char) : Bool :=
  matchAt l || scanAfter l

/-- Model of `hasNamespaceMetadata` (part_001 lines 207–211). -/
def hasNamespaceMetadata (content : String) : Bool :=
  hnmList content.data

/-! ## Data model -/

/-- A note file as the plugin sees it: `path` is the vault path
(`file.path`), `basename` the file name without extension (`file.basename`),
`folderPath` the parent folder's path (`file.parent?.path || ''`; empty for a
root-level note, following the spec's data model for `Note`). -/
structure NoteFile where
  path : String
  basename : String
  folderPath : String
deriving DecidableEq, Repr

/-- Model of the `LogseqNamespaceSettings` interface. -/
structure LogseqNamespaceSettings where
  namespaceFormat : String
  excludePatterns : List String
  autoProcessNewFiles : Bool
  batchSize : Nat
  showProgressBar : Bool
deriving Repr

/-- Model of `DEFAULT_SETTINGS` (part_001 lines 35–41). -/
def DEFAULT_SETTINGS : LogseqNamespaceSettings :=
  { namespaceFormat := "{path}"
    excludePatterns := ["templates/", ".trash/", "archive/"]
    autoProcessNewFiles := true
    batchSize := 50
    showProgressBar := true }

/-! ## Rule engine (pure functions of part_001) -/

/-- Model of `shouldExcludeFile` (part_001 lines 216–221): some exclude pattern
is a case-insensitive substring of the file path. -/
def shouldExcludeFile (s : LogseqNamespaceSettings) (f : NoteFile) : Bool :=
  s.excludePatterns.any fun pat =>
    containsSub (pat.data.map lowerChar) (f.path.data.map lowerChar)

/-- Model of `generateNamespace` (part_001 lines 226–242): empty for root
notes; otherwise substitute `{path}` and `{name}` (JS `replace`: first
occurrence only), collapse repeated slashes, strip one leading and one
trailing slash. -/
def generateNamespace (s : LogseqNamespaceSettings) (f : NoteFile) : String :=
  if f.folderPath = "" then ""
  else
    let ns1 := jsReplaceFirst "{path}".data f.folderPath.data s.namespaceFormat.data
    let ns2 := jsReplaceFirst "{name}".data f.basename.data ns1
    ⟨stripEdgeSlashes (collapseSlashes ns2)⟩

/-- The metadata block prepended by injection:
`` `namespace:: ${namespace}\n\n` `` (part_001 line 505). -/
def namespaceMetadata (ns : String) : String :=
  "namespace:: " ++ ns ++ "\n\n"

/-! ## Single-note injection -/

/-- Observable outcome of one `injectNamespace` call (part_001 lines 475–525).
`wrote c` means `vault.modify(file, c)` succeeded; the `skip…` constructors are
the early returns, in source order; `raised e` means the `catch` block logged
and re-threw the error `e` to the caller. -/
inductive InjectOutcome where
  | notReady
  | skipRoot
  | skipExcluded
  | raised (e : String)
  | skipMarker
  | skipNull
  | skipCorrupt
  | wrote (newContent : String)
deriving DecidableEq, Repr

/-- Model of `injectNamespace` (part_001 lines 475–525).  `vaultReady` models
`validateVaultState()`; `readRes` is the outcome of `vault.read(file)`
(`Except.error` = the read threw, `some`/`none` = the returned content, `none`
modelling a null/undefined value); `writeRes` is the outcome of
`vault.modify`.  The regex test applied to a null content is `false` (JS
coerces `null` to the string `"null"`, which does not match). -/
def injectNamespace (s : LogseqNamespaceSettings) (vaultReady : Bool)
    (f : NoteFile) (readRes : Except String (Option String))
    (writeRes : Except String Unit) : InjectOutcome :=
  if !vaultReady then .notReady
  else
    let ns := generateNamespace s f
    if ns = "" then .skipRoot
    else if shouldExcludeFile s f then .skipExcluded
    else
      match readRes with
      | .error e => .raised e
      | .ok contentOpt =>
        if (contentOpt.map hasNamespaceMetadata).getD false then .skipMarker
        else
          match contentOpt with
          | none => .skipNull
          | some content =>
            let newContent := namespaceMetadata ns ++ content
            if newContent.length < content.length then .skipCorrupt
            else
              match writeRes with
              | .error e => .raised e
              | .ok _ => .wrote newContent

/-! ## Batch processor -/

/-- Failure injection for one batch run: which paths fail to read during
BACKING_UP, fail to write during APPLYING, and fail to write during
ROLLING_BACK. -/
structure BatchEnv where
  readFails : String → Bool
  writeFails : String → Bool
  restoreFails : String → Bool

/-- An environment in which every read and write succeeds. -/
def noFailEnv : BatchEnv :=
  { readFails := fun _ => false, writeFails := fun _ => false
    restoreFails := fun _ => false }

/-- Point update of a content map (the effect of a successful
`vault.modify(file, c)` on the vault's contents, keyed by path). -/
def updateMap (cm : String → String) (p : String) (c : String) : String → String :=
  fun q => if q = p then c else cm q

/-- Model of the scan loop of `processExistingFiles` (part_001 lines 348–379,
with `getFilesToProcess`, lines 291–302): keep notes in a subfolder that are
not excluded, skip those whose content already has the marker or whose
computed namespace is empty, and plan the new content for the rest.  `cm`
gives each path's current content (the claims about the scan concern runs
whose reads succeed). -/
def scanPlanned (s : LogseqNamespaceSettings) (files : List NoteFile)
    (cm : String → String) : List (NoteFile × String) :=
  (files.filter fun f => f.folderPath ≠ "" && !shouldExcludeFile s f).filterMap
    fun f =>
      let content := cm f.path
      if hasNamespaceMetadata content then none
      else
        let ns := generateNamespace s f
        if ns = "" then none
        else some (f, namespaceMetadata ns ++ content)

/-- Model of `createBackups` (part_001 lines 307–325): read every file in
order; the first failing read aborts the whole phase. -/
def createBackups (env : BatchEnv) (cm : String → String) :
    List NoteFile → Except String (List (NoteFile × String))
  | [] => .ok []
  | f :: rest =>
    if env.readFails f.path then .error f.path
    else
      match createBackups env cm rest with
      | .error e => .error e
      | .ok bs => .ok ((f, cm f.path) :: bs)

/-- Model of the APPLYING loop (part_001 lines 419–434): write each planned
change in order; the first failing write aborts the loop (the cooperative
`batchSize` pause has no effect on contents and is not modelled).  Returns the
content map after the successful writes and the failing path, if any. -/
def applyPhase (env : BatchEnv) :
    List (NoteFile × String) → (String → String) → (String → String) × Option String
  | [], cm => (cm, none)
  | (f, nc) :: rest, cm =>
    if env.writeFails f.path then (cm, some f.path)
    else applyPhase env rest (updateMap cm f.path nc)

/-- Model of `restoreFromBackups` (part_001 lines 330–339): restore each
backup in order; a failing restore is logged and skipped. -/
def restoreFromBackups (env : BatchEnv) (backups : List (NoteFile × String))
    (cm : String → String) : String → String :=
  backups.foldl (fun m b => if env.restoreFails b.1.path then m
                            else updateMap m b.1.path b.2) cm

/-- Model of `executeAtomicOperation` (part_001 lines 405–457): create all
backups, then apply all changes; if backing up throws, `backups` is still
empty, so the catch block performs no rollback and no write has happened; if a
write throws, every taken backup is restored best-effort.  Returns the final
content map and whether the batch succeeded. -/
def executeAtomicOperation (env : BatchEnv) (planned : List (NoteFile × String))
    (cm : String → String) : (String → String) × Bool :=
  match createBackups env cm (planned.map fun p => p.1) with
  | .error _ => (cm, false)
  | .ok backups =>
    match applyPhase env planned cm with
    | (cm2, none) => (cm2, true)
    | (cm2, some _) => (restoreFromBackups env backups cm2, false)

/-- Model of the large-operation warning of `BulkOperationModal.onOpen`
(part_001 lines 99–104): shown exactly when `this.files.length > 100`. -/
def bulkWarningShown (files : List NoteFile) : Bool :=
  files.length > 100

/-! ## Spec-side definitions (used only to compare the code with the spec's
words; each is written from the spec sentence it names, not from the source) -/

/-- Split on `'\n'` (for the spec's "scanned line-by-line"). -/
def splitOnNl : List Char → List (List Char)
  | [] => [[]]
  | c :: rest =>
    if c = '\n' then [] :: splitOnNl rest
    else
      match splitOnNl rest with
      | h :: t => (c :: h) :: t
      | [] => [[c]]

/-- The marker check as claim C3 words it: some line consists of optional
leading whitespace, the literal text `namespace::`, and then a non-empty
value. -/
def claimHasMarker (content : String) : Bool :=
  (splitOnNl content.data).any fun line =>
    let l' := line.dropWhile fun c => isJsSpace c
    List.isPrefixOf "namespace::".data l' && "namespace::".data.length < l'.length

/-- Every character of `w` is JS whitespace. -/
def wsRun (w : List Char) : Prop := ∀ c ∈ w, isJsSpace c = true

/-- Declarative reading of what `/^\s*namespace\s*::\s*.+$/m` accepts: at the
start of the input or just after a line terminator there are optional
whitespace (line breaks included), the text `namespace`, optional whitespace,
`::`, optional whitespace, and then at least one non-line-terminator
character. -/
def markerAmendedSpec (content : String) : Prop :=
  ∃ (p w1 w2 w3 : List Char) (c : Char) (rest : List Char),
    content.data =
      p ++ w1 ++ "namespace".data ++ w2 ++ [':', ':'] ++ w3 ++ c :: rest ∧
    (p = [] ∨ ∃ p' d, p = p' ++ [d] ∧ isLineTerm d = true) ∧
    wsRun w1 ∧ wsRun w2 ∧ wsRun w3 ∧ isLineTerm c = false

/-- The namespace value as §4.1 of the spec words it ("Substitute `{path}`
with folder path and `{name}` with the note's base name into `format`;
collapse repeated path separators; strip leading/trailing separators"),
reading "substitute" as replacing every occurrence. -/
def specComputeNamespaceValue (s : LogseqNamespaceSettings) (f : NoteFile) : String :=
  if f.folderPath = "" then ""
  else
    let t1 := jsReplaceAll "{path}".data f.folderPath.data s.namespaceFormat.data
    let t2 := jsReplaceAll "{name}".data f.basename.data t1
    ⟨stripEdgeSlashes (collapseSlashes t2)⟩

/-! ## Characterization of the marker matcher -/

theorem wsThen_eq_true_iff (f : List Char → Bool) (l : List Char) :
    wsThen f l = true ↔ ∃ w r, l = w ++ r ∧ wsRun w ∧ f r = true := by
  induction l with
  | nil =>
    simp only [wsThen]
    constructor
    · intro h
      exact ⟨[], [], rfl, fun c hc => absurd hc (List.not_mem_nil c), h⟩
    · rintro ⟨w, r, heq, -, hf⟩
      obtain ⟨rfl, rfl⟩ := List.append_eq_nil.mp heq.symm
      exact hf
  | cons c rest ih =>
    simp only [wsThen, Bool.or_eq_true, Bool.and_eq_true]
    constructor
    · rintro (h | ⟨hws, h⟩)
      · exact ⟨[], c :: rest, rfl, fun x hx => absurd hx (List.not_mem_nil x), h⟩
      · obtain ⟨w, r, heq, hw, hf⟩ := ih.mp h
        exact ⟨c :: w, r, by simp [heq], by
          intro x hx
          rcases List.mem_cons.mp hx with rfl | hx
          · exact hws
          · exact hw x hx, hf⟩
    · rintro ⟨w, r, heq, hw, hf⟩
      cases w with
      | nil => exact Or.inl (by simpa using heq ▸ hf)
      | cons d w' =>
        obtain ⟨rfl, htail⟩ : c = d ∧ rest = w' ++ r := by
          simpa using heq
        refine Or.inr ⟨hw c (List.mem_cons_self c w'), ih.mpr ⟨w', r, htail, ?_, hf⟩⟩
        intro x hx
        exact hw x (List.mem_cons_of_mem c hx)

theorem matchLit_eq_some_iff (p : List Char) :
    ∀ l r, matchLit p l = some r ↔ l = p ++ r := by
  induction p with
  | nil =>
    intro l r
    simp [matchLit]
  | cons x ps ih =>
    intro l r
    cases l with
    | nil => simp [matchLit]
    | cons c cs =>
      by_cases hcx : c = x
      · subst hcx
        simp only [matchLit, if_pos rfl, List.cons_append, List.cons.injEq, true_and]
        exact ih cs r
      · simp [matchLit, hcx]

theorem matchTail_eq_true_iff (l : List Char) :
    matchTail l = true ↔
      ∃ (w : List Char) (c : Char) (r : List Char), l = w ++ c :: r ∧ wsRun w ∧ isLineTerm c = false := by
  induction l with
  | nil =>
    simp only [matchTail]
    constructor
    · intro h
      exact absurd h (by simp)
    · rintro ⟨w, c, r, heq, -, -⟩
      exact absurd heq.symm (by simp)
  | cons d rest ih =>
    simp only [matchTail, Bool.or_eq_true, Bool.and_eq_true, Bool.not_eq_true']
    constructor
    · rintro (h | ⟨hws, h⟩)
      · exact ⟨[], d, rest, rfl, fun x hx => absurd hx (List.not_mem_nil x), h⟩
      · obtain ⟨w, c, r, heq, hw, hc⟩ := ih.mp h
        refine ⟨d :: w, c, r, by simp [heq], ?_, hc⟩
        intro x hx
        rcases List.mem_cons.mp hx with rfl | hx
        · exact hws
        · exact hw x hx
    · rintro ⟨w, c, r, heq, hw, hc⟩
      cases w with
      | nil =>
        obtain ⟨rfl, -⟩ : d = c ∧ rest = r := by simpa using heq
        exact Or.inl hc
      | cons e w' =>
        obtain ⟨rfl, htail⟩ : d = e ∧ rest = w' ++ c :: r := by simpa using heq
        refine Or.inr ⟨hw d (List.mem_cons_self d w'), ih.mpr ⟨w', c, r, htail, ?_, hc⟩⟩
        intro x hx
        exact hw x (List.mem_cons_of_mem d hx)

theorem matchColons_eq_true_iff (l : List Char) :
    matchColons l = true ↔
      ∃ (w : List Char) (c : Char) (r : List Char),
        l = [':', ':'] ++ w ++ c :: r ∧ wsRun w ∧ isLineTerm c = false := by
  unfold matchColons
  cases h : matchLit [':', ':'] l with
  | none =>
    constructor
    · intro hf
      exact absurd hf (by simp)
    · rintro ⟨w, c, r, heq, -, -⟩
      have : matchLit [':', ':'] l = some (w ++ c :: r) :=
        (matchLit_eq_some_iff _ _ _).mpr (by simp [heq])
      rw [h] at this
      exact absurd this (by simp)
  | some rest =>
    have hrest : l = [':', ':'] ++ rest := (matchLit_eq_some_iff _ _ _).mp h
    subst hrest
    rw [matchTail_eq_true_iff]
    constructor
    · rintro ⟨w, c, r, heq, hw, hc⟩
      exact ⟨w, c, r, by simp [heq], hw, hc⟩
    · rintro ⟨w, c, r, heq, hw, hc⟩
      exact ⟨w, c, r, by simpa using heq, hw, hc⟩

theorem matchNsAt_eq_true_iff (l : List Char) :
    matchNsAt l = true ↔
      ∃ (w2 w3 : List Char) (c : Char) (r : List Char),
        l = "namespace".data ++ w2 ++ [':', ':'] ++ w3 ++ c :: r ∧
          wsRun w2 ∧ wsRun w3 ∧ isLineTerm c = false := by
  unfold matchNsAt
  cases h : matchLit "namespace".toList l with
  | none =>
    constructor
    · intro hf
      exact absurd hf (by simp)
    · rintro ⟨w2, w3, c, r, heq, -, -, -⟩
      have : matchLit "namespace".toList l
          = some (w2 ++ [':', ':'] ++ w3 ++ c :: r) :=
        (matchLit_eq_some_iff _ _ _).mpr (by simp [heq, String.toList])
      rw [h] at this
      exact absurd this (by simp)
  | some rest =>
    have hrest : l = "namespace".toList ++ rest := (matchLit_eq_some_iff _ _ _).mp h
    subst hrest
    rw [wsThen_eq_true_iff]
    constructor
    · rintro ⟨w2, r', heq, hw2, hcol⟩
      obtain ⟨w3, c, r, heq2, hw3, hc⟩ := (matchColons_eq_true_iff r').mp hcol
      exact ⟨w2, w3, c, r, by simp [String.toList, heq, heq2], hw2, hw3, hc⟩
    · rintro ⟨w2, w3, c, r, heq, hw2, hw3, hc⟩
      refine ⟨w2, [':', ':'] ++ w3 ++ c :: r, ?_, hw2,
        (matchColons_eq_true_iff _).mpr ⟨w3, c, r, by simp, hw3, hc⟩⟩
      have := heq
      simp only [String.toList] at *
      have h9 : ("namespace".data).append (w2 ++ [':', ':'] ++ w3 ++ c :: r)
          = "namespace".data ++ w2 ++ [':', ':'] ++ w3 ++ c :: r := by
        simp
      apply @List.append_cancel_left _ ("namespace".data) _ _
      simpa using this

theorem matchAt_eq_true_iff (l : List Char) :
    matchAt l = true ↔
      ∃ (w1 w2 w3 : List Char) (c : Char) (r : List Char),
        l = w1 ++ "namespace".data ++ w2 ++ [':', ':'] ++ w3 ++ c :: r ∧
          wsRun w1 ∧ wsRun w2 ∧ wsRun w3 ∧ isLineTerm c = false := by
  unfold matchAt
  rw [wsThen_eq_true_iff]
  constructor
  · rintro ⟨w1, r', heq, hw1, hns⟩
    obtain ⟨w2, w3, c, r, heq2, hw2, hw3, hc⟩ := (matchNsAt_eq_true_iff r').mp hns
    exact ⟨w1, w2, w3, c, r, by simp [heq, heq2], hw1, hw2, hw3, hc⟩
  · rintro ⟨w1, w2, w3, c, r, heq, hw1, hw2, hw3, hc⟩
    refine ⟨w1, "namespace".data ++ w2 ++ [':', ':'] ++ w3 ++ c :: r, by simp [heq],
      hw1, (matchNsAt_eq_true_iff _).mpr ⟨w2, w3, c, r, by simp, hw2, hw3, hc⟩⟩

theorem scanAfter_eq_true_iff (l : List Char) :
    scanAfter l = true ↔
      ∃ (a : List Char) (d : Char) (r : List Char), l = a ++ d :: r ∧ isLineTerm d = true ∧ matchAt r = true := by
  induction l with
  | nil =>
    simp only [scanAfter]
    constructor
    · intro h
      exact absurd h (by simp)
    · rintro ⟨a, d, r, heq, -, -⟩
      exact absurd heq.symm (by simp)
  | cons c rest ih =>
    simp only [scanAfter, Bool.or_eq_true, Bool.and_eq_true]
    constructor
    · rintro (⟨hlt, hm⟩ | h)
      · exact ⟨[], c, rest, rfl, hlt, hm⟩
      · obtain ⟨a, d, r, heq, hlt, hm⟩ := ih.mp h
        exact ⟨c :: a, d, r, by simp [heq], hlt, hm⟩
    · rintro ⟨a, d, r, heq, hlt, hm⟩
      cases a with
      | nil =>
        obtain ⟨rfl, rfl⟩ : c = d ∧ rest = r := by simpa using heq
        exact Or.inl ⟨hlt, hm⟩
      | cons e a' =>
        obtain ⟨rfl, htail⟩ : c = e ∧ rest = a' ++ d :: r := by simpa using heq
        exact Or.inr (ih.mpr ⟨a', d, r, htail, hlt, hm⟩)

theorem hnmList_eq_true_iff (l : List Char) :
    hnmList l = true ↔
      ∃ (p w1 w2 w3 : List Char) (c : Char) (r : List Char),
        l = p ++ w1 ++ "namespace".data ++ w2 ++ [':', ':'] ++ w3 ++ c :: r ∧
          (p = [] ∨ ∃ p' d, p = p' ++ [d] ∧ isLineTerm d = true) ∧
          wsRun w1 ∧ wsRun w2 ∧ wsRun w3 ∧ isLineTerm c = false := by
  unfold hnmList
  simp only [Bool.or_eq_true]
  constructor
  · rintro (h | h)
    · obtain ⟨w1, w2, w3, c, r, heq, hw1, hw2, hw3, hc⟩ := (matchAt_eq_true_iff l).mp h
      exact ⟨[], w1, w2, w3, c, r, by simp [heq], Or.inl rfl, hw1, hw2, hw3, hc⟩
    · obtain ⟨a, d, r0, heq, hlt, hm⟩ := (scanAfter_eq_true_iff l).mp h
      obtain ⟨w1, w2, w3, c, r, heq2, hw1, hw2, hw3, hc⟩ :=
        (matchAt_eq_true_iff r0).mp hm
      refine ⟨a ++ [d], w1, w2, w3, c, r, by simp [heq, heq2],
        Or.inr ⟨a, d, rfl, hlt⟩, hw1, hw2, hw3, hc⟩
  · rintro ⟨p, w1, w2, w3, c, r, heq, hp, hw1, hw2, hw3, hc⟩
    rcases hp with rfl | ⟨p', d, rfl, hd⟩
    · exact Or.inl ((matchAt_eq_true_iff l).mpr
        ⟨w1, w2, w3, c, r, by simpa using heq, hw1, hw2, hw3, hc⟩)
    · refine Or.inr ((scanAfter_eq_true_iff l).mpr
        ⟨p', d, w1 ++ "namespace".data ++ w2 ++ [':', ':'] ++ w3 ++ c :: r,
          by simp [heq], hd, (matchAt_eq_true_iff _).mpr
            ⟨w1, w2, w3, c, r, by simp, hw1, hw2, hw3, hc⟩⟩)

/-- Content produced by injection always passes the marker test again: the
matcher accepts `namespace:: ` followed by anything, because `.` also matches
the trailing space. -/
theorem hnmList_namespaceMetadata (l r : List Char) :
    hnmList ("namespace:: ".data ++ (l ++ ('\n' :: '\n' :: r))) = true := rfl

theorem hasNamespaceMetadata_namespaceMetadata (ns c : String) :
    hasNamespaceMetadata (namespaceMetadata ns ++ c) = true := by
  unfold hasNamespaceMetadata namespaceMetadata
  have h1 : ("namespace:: " ++ ns ++ "\n\n" ++ c).data
      = "namespace:: ".data ++ (ns.data ++ ('\n' :: '\n' :: c.data)) := by
    simp [String.data_append]
  rw [h1]
  exact hnmList_namespaceMetadata ns.data c.data

/-- Prepending never shortens: the length of `namespaceMetadata ns ++ c` is at
least the length of `c`. -/
theorem length_le_namespaceMetadata_append (ns c : String) :
    c.length ≤ (namespaceMetadata ns ++ c).length := by
  rw [String.length_append]
  exact Nat.le_add_left _ _

/-! ## Claim C7 -/

/-- Claim C7: the bulk confirmation modal shows the extra large-operation
warning iff the number of notes handed to it is 101 or more; for 100 or fewer
no extra warning is shown (`this.files.length > 100`, part_001 line 99). -/
theorem bulk_warning_threshold (files : List NoteFile) :
    bulkWarningShown files = true ↔ 101 ≤ files.length := by
  simp only [bulkWarningShown, gt_iff_lt, decide_eq_true_eq]
  omega

/-! ## Claim C8 -/

/-- Claim C8: content length after injection is at least the length before
(injection only prepends), so the defensive corruption branch of
`injectNamespace` (part_001 lines 511–514) is unreachable: no input makes
`injectNamespace` return `skipCorrupt`. -/
theorem inject_never_shrinks :
    (∀ ns c : String, c.length ≤ (namespaceMetadata ns ++ c).length) ∧
    ∀ (s : LogseqNamespaceSettings) (ready : Bool) (f : NoteFile)
      (readRes : Except String (Option String)) (writeRes : Except String Unit),
      injectNamespace s ready f readRes writeRes ≠ .skipCorrupt := by
  refine ⟨length_le_namespaceMetadata_append, ?_⟩
  intro s ready f readRes writeRes
  by_cases hr : (!ready) = true
  · simp [injectNamespace, hr]
  · by_cases hns : generateNamespace s f = ""
    · simp [injectNamespace, hr, hns]
    · by_cases hex : shouldExcludeFile s f = true
      · simp [injectNamespace, hr, hns, hex]
      · match readRes with
        | .error e => simp [injectNamespace, hr, hns, hex]
        | .ok none => simp [injectNamespace, hr, hns, hex]
        | .ok (some content) =>
          by_cases hm : hasNamespaceMetadata content = true
          · simp [injectNamespace, hr, hns, hex, hm]
          · have hlen :=
              length_le_namespaceMetadata_append (generateNamespace s f) content
            match writeRes with
            | .error e =>
              simp [injectNamespace, hr, hns, hex, hm, Nat.not_lt.mpr hlen]
            | .ok _ =>
              simp [injectNamespace, hr, hns, hex, hm, Nat.not_lt.mpr hlen]

/-! ## Claim C3 -/

/-- Claim C3 as stated is false: the matcher also accepts whitespace between
`namespace` and `::`.  On the content `"namespace ::x"` the code's regex test
returns `true`, but no line consists of optional leading whitespace followed
by the literal text `namespace::` and a value. -/
theorem marker_regex_literal_counterexample :
    hasNamespaceMetadata "namespace ::x" = true ∧
    claimHasMarker "namespace ::x" = false := by
  exact ⟨rfl, rfl⟩

/-- Claim C3 (amended): `hasNamespaceMetadata content` is true iff, starting
at the start of the content or just after a line terminator, there follow
optional whitespace, the text `namespace`, optional whitespace, `::`, optional
whitespace (each run may include line breaks) and at least one further
non-line-terminator character; whenever the test is true, single-note
injection does not write the note. -/
theorem marker_regex_characterization (content : String) :
    (hasNamespaceMetadata content = true ↔ markerAmendedSpec content) ∧
    ∀ (s : LogseqNamespaceSettings) (ready : Bool) (f : NoteFile)
      (writeRes : Except String Unit) (nc : String),
      hasNamespaceMetadata content = true →
      injectNamespace s ready f (.ok (some content)) writeRes ≠ .wrote nc := by
  constructor
  · unfold hasNamespaceMetadata markerAmendedSpec
    exact hnmList_eq_true_iff content.data
  · intro s ready f writeRes nc hmark
    by_cases hr : (!ready) = true
    · simp [injectNamespace, hr]
    · by_cases hns : generateNamespace s f = ""
      · simp [injectNamespace, hr, hns]
      · by_cases hex : shouldExcludeFile s f = true
        · simp [injectNamespace, hr, hns, hex]
        · simp [injectNamespace, hr, hns, hex, hmark]

/-- Witness for the amended claim C3 at a concrete marked content. -/
theorem marker_regex_characterization_witness :
    injectNamespace DEFAULT_SETTINGS true ⟨"a/x.md", "x", "a"⟩
      (.ok (some "namespace:: a")) (.ok ()) ≠ .wrote "anything" :=
  (marker_regex_characterization "namespace:: a").2 DEFAULT_SETTINGS true
    ⟨"a/x.md", "x", "a"⟩ (.ok ()) "anything" (by decide)

/-! ## Claim C2 -/

/-- Claim C2 as stated is false: it omits the exclusion check.  Under the
default settings the note `templates/x.md` has the non-empty namespace value
`"templates"` and markerless content `"Hello"`, yet injection writes nothing
(the note matches the exclude pattern `templates/`). -/
theorem inject_excluded_note_counterexample :
    generateNamespace DEFAULT_SETTINGS ⟨"templates/x.md", "x", "templates"⟩
      = "templates" ∧
    hasNamespaceMetadata "Hello" = false ∧
    injectNamespace DEFAULT_SETTINGS true ⟨"templates/x.md", "x", "templates"⟩
      (.ok (some "Hello")) (.ok ()) = .skipExcluded := by
  refine ⟨by decide, rfl, by decide⟩

/-- Claim C2 (amended): for every note whose computed namespace value is a
non-empty `v`, that matches no exclude pattern, and whose content `c` has no
marker, single-note injection writes back exactly
`"namespace:: " ++ v ++ "\n\n" ++ c`; in particular the spec's example note
produces exactly `"namespace:: Projects/MyProject\n\nHello"`. -/
theorem inject_writes_prepended_namespace :
    (∀ (s : LogseqNamespaceSettings) (f : NoteFile) (c : String),
      generateNamespace s f ≠ "" →
      shouldExcludeFile s f = false →
      hasNamespaceMetadata c = false →
      injectNamespace s true f (.ok (some c)) (.ok ())
        = .wrote ("namespace:: " ++ generateNamespace s f ++ "\n\n" ++ c)) ∧
    injectNamespace DEFAULT_SETTINGS true
      ⟨"Projects/MyProject/notes.md", "notes", "Projects/MyProject"⟩
      (.ok (some "Hello")) (.ok ())
      = .wrote "namespace:: Projects/MyProject\n\nHello" := by
  constructor
  · intro s f c hns hexc hmark
    have hlen := length_le_namespaceMetadata_append (generateNamespace s f) c
    simp [injectNamespace, hns, hexc, hmark, Nat.not_lt.mpr hlen,
      namespaceMetadata, String.append_assoc]
    omega
  · decide

/-- Witness for the amended claim C2 at the spec's example note. -/
theorem inject_writes_prepended_namespace_witness :
    injectNamespace DEFAULT_SETTINGS true
      ⟨"Projects/MyProject/notes.md", "notes", "Projects/MyProject"⟩
      (.ok (some "Hello")) (.ok ())
      = .wrote ("namespace:: "
          ++ generateNamespace DEFAULT_SETTINGS
              ⟨"Projects/MyProject/notes.md", "notes", "Projects/MyProject"⟩
          ++ "\n\n" ++ "Hello") :=
  inject_writes_prepended_namespace.1 DEFAULT_SETTINGS
    ⟨"Projects/MyProject/notes.md", "notes", "Projects/MyProject"⟩ "Hello"
    (by decide) (by decide) rfl

/-! ## Claim C9 -/

/-- Claim C9 as stated is false: a failing read is not surfaced as a skip;
the `catch` block of `injectNamespace` (part_001 lines 521–524) logs and
re-throws, so the exception propagates to the caller. -/
theorem inject_rethrows_counterexample :
    injectNamespace DEFAULT_SETTINGS true ⟨"Projects/a.md", "a", "Projects"⟩
      (.error "read failure") (.ok ()) = .raised "read failure" := by
  decide

/-- Claim C9 (amended): for a note that reaches the I/O steps (non-empty
namespace value, not excluded), a read failure and a write failure are each
logged and re-thrown to the caller, while null/undefined content is surfaced
as a skip with a warning and never thrown. -/
theorem inject_error_propagation :
    (∀ (s : LogseqNamespaceSettings) (f : NoteFile) (e : String)
        (w : Except String Unit),
      generateNamespace s f ≠ "" → shouldExcludeFile s f = false →
      injectNamespace s true f (.error e) w = .raised e) ∧
    (∀ (s : LogseqNamespaceSettings) (f : NoteFile) (c : String) (e : String),
      generateNamespace s f ≠ "" → shouldExcludeFile s f = false →
      hasNamespaceMetadata c = false →
      injectNamespace s true f (.ok (some c)) (.error e) = .raised e) ∧
    ∀ (s : LogseqNamespaceSettings) (f : NoteFile) (w : Except String Unit),
      generateNamespace s f ≠ "" → shouldExcludeFile s f = false →
      injectNamespace s true f (.ok none) w = .skipNull := by
  refine ⟨?_, ?_, ?_⟩
  · intro s f e w hns hexc
    simp [injectNamespace, hns, hexc]
  · intro s f c e hns hexc hmark
    have hlen := length_le_namespaceMetadata_append (generateNamespace s f) c
    simp [injectNamespace, hns, hexc, hmark, Nat.not_lt.mpr hlen]
  · intro s f w hns hexc
    simp [injectNamespace, hns, hexc]

/-- Witness for the amended claim C9: a null content is skipped for a
concrete processable note. -/
theorem inject_error_propagation_witness :
    injectNamespace DEFAULT_SETTINGS true ⟨"Projects/a.md", "a", "Projects"⟩
      (.ok none) (.ok ()) = .skipNull :=
  inject_error_propagation.2.2 DEFAULT_SETTINGS ⟨"Projects/a.md", "a", "Projects"⟩
    (.ok ()) (by decide) (by decide)

/-! ## Lemmas about the batch phases -/

theorem createBackups_ok (env : BatchEnv) (cm : String → String)
    (files : List NoteFile) (h : ∀ f ∈ files, env.readFails f.path = false) :
    createBackups env cm files = .ok (files.map fun f => (f, cm f.path)) := by
  induction files with
  | nil => rfl
  | cons f rest ih =>
    have hf : env.readFails f.path = false := h f (List.mem_cons_self f rest)
    have hrest := ih fun g hg => h g (List.mem_cons_of_mem f hg)
    simp [createBackups, hf, hrest]

theorem createBackups_error (env : BatchEnv) (cm : String → String)
    (files : List NoteFile) (h : ∃ f ∈ files, env.readFails f.path = true) :
    ∃ e, createBackups env cm files = .error e := by
  induction files with
  | nil =>
    obtain ⟨f, hf, -⟩ := h
    exact absurd hf (List.not_mem_nil f)
  | cons f rest ih =>
    by_cases hf : env.readFails f.path = true
    · exact ⟨f.path, by simp [createBackups, hf]⟩
    · obtain ⟨g, hg, hgf⟩ := h
      rcases List.mem_cons.mp hg with rfl | hg'
      · exact absurd hgf hf
      · obtain ⟨e, he⟩ := ih ⟨g, hg', hgf⟩
        refine ⟨e, ?_⟩
        simp [createBackups, hf, he]

theorem applyPhase_cons_fail (env : BatchEnv) (f : NoteFile) (nc : String)
    (rest : List (NoteFile × String)) (cm : String → String)
    (hw : env.writeFails f.path = true) :
    applyPhase env ((f, nc) :: rest) cm = (cm, some f.path) := by
  simp [applyPhase, hw]

theorem applyPhase_cons_ok (env : BatchEnv) (f : NoteFile) (nc : String)
    (rest : List (NoteFile × String)) (cm : String → String)
    (hw : env.writeFails f.path = false) :
    applyPhase env ((f, nc) :: rest) cm
      = applyPhase env rest (updateMap cm f.path nc) := by
  simp [applyPhase, hw]

theorem applyPhase_fails (env : BatchEnv) (planned : List (NoteFile × String))
    (h : ∃ p ∈ planned, env.writeFails p.1.path = true) :
    ∀ cm, ∃ e, (applyPhase env planned cm).2 = some e := by
  induction planned with
  | nil =>
    obtain ⟨p, hp, -⟩ := h
    exact absurd hp (List.not_mem_nil p)
  | cons q rest ih =>
    intro cm
    obtain ⟨f, nc⟩ := q
    by_cases hw : env.writeFails f.path = true
    · exact ⟨f.path, by rw [applyPhase_cons_fail env f nc rest cm hw]⟩
    · obtain ⟨p, hp, hpw⟩ := h
      rcases List.mem_cons.mp hp with rfl | hp'
      · exact absurd hpw hw
      · obtain ⟨e, he⟩ := ih ⟨p, hp', hpw⟩ (updateMap cm f.path nc)
        refine ⟨e, ?_⟩
        rw [applyPhase_cons_ok env f nc rest cm (by simpa using hw)]
        exact he

theorem applyPhase_succeeds (env : BatchEnv) (planned : List (NoteFile × String))
    (h : ∀ p ∈ planned, env.writeFails p.1.path = false) :
    ∀ cm, (applyPhase env planned cm).2 = none := by
  induction planned with
  | nil => intro cm; rfl
  | cons q rest ih =>
    intro cm
    obtain ⟨f, nc⟩ := q
    have hw : env.writeFails f.path = false := h (f, nc) (List.mem_cons_self _ _)
    rw [applyPhase_cons_ok env f nc rest cm hw]
    exact ih (fun p hp => h p (List.mem_cons_of_mem _ hp)) _

/-- Every content after the APPLYING loop is either the content before it or
the planned content of some planned note with that path. -/
theorem applyPhase_content (env : BatchEnv) (planned : List (NoteFile × String)) :
    ∀ cm q, (applyPhase env planned cm).1 q = cm q ∨
      ∃ p ∈ planned, p.1.path = q ∧ (applyPhase env planned cm).1 q = p.2 := by
  induction planned with
  | nil => exact fun cm q => Or.inl rfl
  | cons hd rest ih =>
    intro cm q
    obtain ⟨f, nc⟩ := hd
    by_cases hw : env.writeFails f.path = true
    · rw [applyPhase_cons_fail env f nc rest cm hw]
      exact Or.inl rfl
    · rw [applyPhase_cons_ok env f nc rest cm (by simpa using hw)]
      rcases ih (updateMap cm f.path nc) q with h1 | ⟨p, hp, hpq, hval⟩
      · by_cases hq : q = f.path
        · subst hq
          refine Or.inr ⟨(f, nc), List.mem_cons_self _ _, rfl, ?_⟩
          rw [h1]
          simp [updateMap]
        · refine Or.inl ?_
          rw [h1]
          simp [updateMap, hq]
      · exact Or.inr ⟨p, List.mem_cons_of_mem _ hp, hpq, hval⟩

/-- A path owned by no planned note is untouched by the APPLYING loop. -/
theorem applyPhase_untouched (env : BatchEnv) (planned : List (NoteFile × String)) :
    ∀ cm q, (∀ p ∈ planned, p.1.path ≠ q) → (applyPhase env planned cm).1 q = cm q := by
  induction planned with
  | nil => exact fun cm q _ => rfl
  | cons hd rest ih =>
    intro cm q hq
    obtain ⟨f, nc⟩ := hd
    by_cases hw : env.writeFails f.path = true
    · rw [applyPhase_cons_fail env f nc rest cm hw]
    · rw [applyPhase_cons_ok env f nc rest cm (by simpa using hw)]
      have hne : f.path ≠ q := hq (f, nc) (List.mem_cons_self _ _)
      rw [ih (updateMap cm f.path nc) q fun p hp => hq p (List.mem_cons_of_mem _ hp)]
      simp [updateMap, Ne.symm hne]

/-- When no write fails, every planned path holds the planned content of one
of its planned notes after the APPLYING loop. -/
theorem applyPhase_all_written (env : BatchEnv)
    (planned : List (NoteFile × String))
    (h : ∀ p ∈ planned, env.writeFails p.1.path = false) :
    ∀ cm q, (∃ p ∈ planned, p.1.path = q) →
      ∃ p ∈ planned, p.1.path = q ∧ (applyPhase env planned cm).1 q = p.2 := by
  induction planned with
  | nil =>
    rintro cm q ⟨p, hp, -⟩
    exact absurd hp (List.not_mem_nil p)
  | cons hd rest ih =>
    intro cm q hex
    obtain ⟨f, nc⟩ := hd
    have hw : env.writeFails f.path = false := h (f, nc) (List.mem_cons_self _ _)
    rw [applyPhase_cons_ok env f nc rest cm hw]
    by_cases hrest : ∃ p ∈ rest, p.1.path = q
    · obtain ⟨p, hp, hpq, hval⟩ :=
        ih (fun p hp => h p (List.mem_cons_of_mem _ hp)) (updateMap cm f.path nc) q hrest
      exact ⟨p, List.mem_cons_of_mem _ hp, hpq, hval⟩
    · obtain ⟨p, hp, hpq⟩ := hex
      rcases List.mem_cons.mp hp with rfl | hp'
      · refine ⟨(f, nc), List.mem_cons_self _ _, hpq, ?_⟩
        rw [applyPhase_untouched env rest (updateMap cm f.path nc) q
          fun r hr hrq => hrest ⟨r, hr, hrq⟩]
        simp [updateMap, hpq.symm]
      · exact absurd ⟨p, hp', hpq⟩ hrest

theorem restoreFromBackups_cons (env : BatchEnv) (b : NoteFile × String)
    (rest : List (NoteFile × String)) (cm : String → String) :
    restoreFromBackups env (b :: rest) cm
      = restoreFromBackups env rest
          (if env.restoreFails b.1.path then cm else updateMap cm b.1.path b.2) := by
  simp [restoreFromBackups]

/-- When every backup holds the pre-batch content of its path, rollback sends
each path either to what it held before rollback or to its pre-batch content. -/
theorem restoreFromBackups_content (env : BatchEnv)
    (backups : List (NoteFile × String)) (cm0 : String → String)
    (h : ∀ b ∈ backups, b.2 = cm0 b.1.path) :
    ∀ m q, restoreFromBackups env backups m q = m q ∨
      restoreFromBackups env backups m q = cm0 q := by
  induction backups with
  | nil => exact fun m q => Or.inl rfl
  | cons b rest ih =>
    intro m q
    rw [restoreFromBackups_cons]
    have hrest := ih fun x hx => h x (List.mem_cons_of_mem _ hx)
    by_cases hr : env.restoreFails b.1.path = true
    · rw [if_pos hr]
      exact hrest m q
    · rw [if_neg hr]
      rcases hrest (updateMap m b.1.path b.2) q with h1 | h1
      · by_cases hq : q = b.1.path
        · subst hq
          right
          rw [h1]
          simp [updateMap, h b (List.mem_cons_self _ _)]
        · left
          rw [h1]
          simp [updateMap, hq]
      · exact Or.inr h1

/-- Rollback preserves "already restored". -/
theorem restoreFromBackups_keeps (env : BatchEnv)
    (backups : List (NoteFile × String)) (cm0 : String → String)
    (h : ∀ b ∈ backups, b.2 = cm0 b.1.path) :
    ∀ m q, m q = cm0 q → restoreFromBackups env backups m q = cm0 q := by
  induction backups with
  | nil => exact fun m q hq => hq
  | cons b rest ih =>
    intro m q hq
    rw [restoreFromBackups_cons]
    have hrest := ih fun x hx => h x (List.mem_cons_of_mem _ hx)
    by_cases hr : env.restoreFails b.1.path = true
    · rw [if_pos hr]
      exact hrest m q hq
    · rw [if_neg hr]
      refine hrest _ q ?_
      by_cases hqb : q = b.1.path
      · subst hqb
        simp [updateMap, h b (List.mem_cons_self _ _)]
      · simpa [updateMap, hqb] using hq

/-- A backed-up path whose restore write succeeds ends rollback holding its
pre-batch content. -/
theorem restoreFromBackups_restores (env : BatchEnv)
    (backups : List (NoteFile × String)) (cm0 : String → String)
    (h : ∀ b ∈ backups, b.2 = cm0 b.1.path) :
    ∀ m q, (∃ b ∈ backups, b.1.path = q) → env.restoreFails q = false →
      restoreFromBackups env backups m q = cm0 q := by
  induction backups with
  | nil =>
    rintro m q ⟨b, hb, -⟩
    exact absurd hb (List.not_mem_nil b)
  | cons b rest ih =>
    rintro m q ⟨x, hx, hxq⟩ hrq
    rw [restoreFromBackups_cons]
    rcases List.mem_cons.mp hx with rfl | hx'
    · subst hxq
      rw [hrq]
      simp only [Bool.false_eq_true, if_false]
      refine restoreFromBackups_keeps env rest cm0
        (fun y hy => h y (List.mem_cons_of_mem _ hy)) _ _ ?_
      simp [updateMap, h x (List.mem_cons_self _ _)]
    · exact ih (fun y hy => h y (List.mem_cons_of_mem _ hy)) _ q ⟨x, hx', hxq⟩ hrq

/-- Every backup created by `createBackups` from content map `cm` holds the
`cm`-content of its path. -/
theorem backup_contents (planned : List (NoteFile × String)) (cm : String → String) :
    ∀ b ∈ planned.map fun p => (p.1, cm p.1.path), b.2 = cm b.1.path := by
  intro b hb
  obtain ⟨p, -, rfl⟩ := List.mem_map.mp hb
  rfl

/-- Every planned change produced by the scan has the prepended-marker shape. -/
theorem scanPlanned_shape (s : LogseqNamespaceSettings) (files : List NoteFile)
    (cm : String → String) :
    ∀ p ∈ scanPlanned s files cm,
      p.2 = namespaceMetadata (generateNamespace s p.1) ++ cm p.1.path := by
  intro p hp
  unfold scanPlanned at hp
  obtain ⟨f, hf, hsome⟩ := List.mem_filterMap.mp hp
  by_cases h1 : hasNamespaceMetadata (cm f.path) = true
  · simp [h1] at hsome
  · by_cases h2 : generateNamespace s f = ""
    · simp [h1, h2] at hsome
    · simp [h1, h2] at hsome
      subst hsome
      rfl

/-- Every planned change produced by the scan passes the marker test. -/
theorem scanPlanned_marker (s : LogseqNamespaceSettings) (files : List NoteFile)
    (cm : String → String) :
    ∀ p ∈ scanPlanned s files cm, hasNamespaceMetadata p.2 = true := by
  intro p hp
  rw [scanPlanned_shape s files cm p hp]
  exact hasNamespaceMetadata_namespaceMetadata _ _

/-! ## Claim C6 -/

/-- Claim C6: in every batch run the backup set used for the run covers every
planned change with its pre-batch content (backups are all taken before the
first write begins), and if reading any planned note fails during the backup
phase the whole batch aborts with the contents untouched — zero writes — and
no partial backup set is used. -/
theorem backups_before_writes (env : BatchEnv)
    (planned : List (NoteFile × String)) (cm : String → String) :
    ((∀ p ∈ planned, env.readFails p.1.path = false) →
      createBackups env cm (planned.map fun p => p.1)
        = .ok (planned.map fun p => (p.1, cm p.1.path))) ∧
    ((∃ p ∈ planned, env.readFails p.1.path = true) →
      executeAtomicOperation env planned cm = (cm, false)) := by
  constructor
  · intro h
    rw [createBackups_ok env cm _ fun f hf => by
      obtain ⟨p, hp, rfl⟩ := List.mem_map.mp hf
      exact h p hp]
    rw [List.map_map]
    rfl
  · rintro ⟨p, hp, hpf⟩
    obtain ⟨e, he⟩ := createBackups_error env cm (planned.map fun p => p.1)
      ⟨p.1, List.mem_map.mpr ⟨p, hp, rfl⟩, hpf⟩
    unfold executeAtomicOperation
    rw [he]

/-- Witness for claim C6 at a one-note batch: the backup holds the pre-batch
content, and a failing read aborts with the vault untouched. -/
theorem backups_before_writes_witness :
    createBackups noFailEnv (fun _ => "old")
      [(⟨"A/a.md", "a", "A"⟩ : NoteFile)]
      = .ok [((⟨"A/a.md", "a", "A"⟩ : NoteFile), "old")] ∧
    executeAtomicOperation
      ⟨fun _ => true, fun _ => false, fun _ => false⟩
      [((⟨"A/a.md", "a", "A"⟩ : NoteFile), "new")] (fun _ => "old")
      = (fun _ => "old", false) := by
  constructor
  · have h := (backups_before_writes noFailEnv
      [((⟨"A/a.md", "a", "A"⟩ : NoteFile), "new")] (fun _ => "old")).1
      (fun p _ => rfl)
    simpa using h
  · exact (backups_before_writes _ _ _).2
      ⟨((⟨"A/a.md", "a", "A"⟩ : NoteFile), "new"), List.mem_singleton.mpr rfl, rfl⟩

/-! ## Claim C1 -/

/-- Claim C1 as stated is false because restoration is best-effort: here the
write to `A/b.md` fails after the write to `A/a.md` succeeded (N = 1), but the
restore of `A/a.md` also fails, so `A/a.md` ends the run with its injected
content `"newA"` instead of being restored to its pre-batch content
`"origA"`. -/
theorem rollback_not_total_counterexample :
    (executeAtomicOperation
        ⟨fun _ => false, fun q => q == "A/b.md", fun q => q == "A/a.md"⟩
        [((⟨"A/a.md", "a", "A"⟩ : NoteFile), "newA"),
         ((⟨"A/b.md", "b", "A"⟩ : NoteFile), "newB")]
        (fun q => if q == "A/a.md" then "origA" else "origB")).1 "A/a.md"
      = "newA" ∧
    ("newA" : String) ≠ "origA" ∧
    (executeAtomicOperation
        ⟨fun _ => false, fun q => q == "A/b.md", fun q => q == "A/a.md"⟩
        [((⟨"A/a.md", "a", "A"⟩ : NoteFile), "newA"),
         ((⟨"A/b.md", "b", "A"⟩ : NoteFile), "newB")]
        (fun q => if q == "A/a.md" then "origA" else "origB")).2 = false := by
  refine ⟨rfl, by decide, rfl⟩

/-- Claim C1 (amended): if all backups were taken and some write in APPLYING
fails, the run reports failure; restoration is attempted for every backup, so
every planned note whose restore write succeeds ends the run with its
pre-batch content; and in every case no note ends the run with content
different from its original content or its fully-injected planned content. -/
theorem atomic_rollback_best_effort (env : BatchEnv)
    (planned : List (NoteFile × String)) (cm : String → String)
    (hr : ∀ p ∈ planned, env.readFails p.1.path = false)
    (hw : ∃ p ∈ planned, env.writeFails p.1.path = true) :
    (executeAtomicOperation env planned cm).2 = false ∧
    (∀ p ∈ planned, env.restoreFails p.1.path = false →
      (executeAtomicOperation env planned cm).1 p.1.path = cm p.1.path) ∧
    ∀ q, (executeAtomicOperation env planned cm).1 q = cm q ∨
      ∃ p ∈ planned, p.1.path = q ∧ (executeAtomicOperation env planned cm).1 q = p.2 := by
  have hread : ∀ f ∈ planned.map (fun p => p.1), env.readFails f.path = false := by
    intro f hf
    obtain ⟨p, hp, rfl⟩ := List.mem_map.mp hf
    exact hr p hp
  have hbk : createBackups env cm (planned.map fun p => p.1)
      = .ok (planned.map fun p => (p.1, cm p.1.path)) := by
    rw [createBackups_ok env cm _ hread, List.map_map]
    rfl
  obtain ⟨e, hap⟩ := applyPhase_fails env planned hw cm
  have hmain : executeAtomicOperation env planned cm
      = (restoreFromBackups env (planned.map fun p => (p.1, cm p.1.path))
          (applyPhase env planned cm).1, false) := by
    unfold executeAtomicOperation
    rw [hbk]
    rcases happ : applyPhase env planned cm with ⟨cm2, osnd⟩
    cases osnd with
    | none =>
      rw [happ] at hap
      exact absurd hap (by simp)
    | some e' => rfl
  have hcontents := backup_contents planned cm
  refine ⟨by rw [hmain], ?_, ?_⟩
  · intro p hp hrp
    rw [hmain]
    exact restoreFromBackups_restores env _ cm hcontents _ p.1.path
      ⟨(p.1, cm p.1.path), List.mem_map.mpr ⟨p, hp, rfl⟩, rfl⟩ hrp
  · intro q
    rw [hmain]
    rcases restoreFromBackups_content env _ cm hcontents
        (applyPhase env planned cm).1 q with h1 | h1
    · rcases applyPhase_content env planned cm q with h2 | ⟨p, hp, hpq, hval⟩
      · exact Or.inl (h1.trans h2)
      · exact Or.inr ⟨p, hp, hpq, h1.trans hval⟩
    · exact Or.inl h1

/-- Witness for the amended claim C1: with no restore failure, the note whose
write succeeded before the failing write is restored to its pre-batch
content. -/
theorem atomic_rollback_best_effort_witness :
    (executeAtomicOperation
        ⟨fun _ => false, fun q => q == "A/b.md", fun _ => false⟩
        [((⟨"A/a.md", "a", "A"⟩ : NoteFile), "newA"),
         ((⟨"A/b.md", "b", "A"⟩ : NoteFile), "newB")]
        (fun q => if q == "A/a.md" then "origA" else "origB")).1 "A/a.md"
      = "origA" := by
  have h := (atomic_rollback_best_effort
      ⟨fun _ => false, fun q => q == "A/b.md", fun _ => false⟩
      [((⟨"A/a.md", "a", "A"⟩ : NoteFile), "newA"),
       ((⟨"A/b.md", "b", "A"⟩ : NoteFile), "newB")]
      (fun q => if q == "A/a.md" then "origA" else "origB")
      (fun p _ => rfl)
      ⟨((⟨"A/b.md", "b", "A"⟩ : NoteFile), "newB"),
        List.mem_cons_of_mem _ (List.mem_singleton.mpr rfl), rfl⟩).2.1
    ((⟨"A/a.md", "a", "A"⟩ : NoteFile), "newA")
    (List.mem_cons_self _ _) rfl
  exact h.trans (by decide)

/-! ## Claim C4 -/

/-- Claim C4: batch processing is idempotent — after a fully successful batch
run over a vault state (same settings), the batch scan over the resulting
contents plans zero changes. -/
theorem batch_scan_idempotent (s : LogseqNamespaceSettings)
    (files : List NoteFile) (cm : String → String) :
    scanPlanned s files
      ((executeAtomicOperation noFailEnv (scanPlanned s files cm) cm).1) = [] := by
  have hbk : createBackups noFailEnv cm ((scanPlanned s files cm).map fun p => p.1)
      = .ok (((scanPlanned s files cm).map fun p => p.1).map fun f => (f, cm f.path)) :=
    createBackups_ok _ _ _ fun f _ => rfl
  have hap2 : (applyPhase noFailEnv (scanPlanned s files cm) cm).2 = none :=
    applyPhase_succeeds _ _ (fun p _ => rfl) cm
  have hexec : (executeAtomicOperation noFailEnv (scanPlanned s files cm) cm).1
      = (applyPhase noFailEnv (scanPlanned s files cm) cm).1 := by
    unfold executeAtomicOperation
    rw [hbk]
    rcases happ : applyPhase noFailEnv (scanPlanned s files cm) cm with ⟨cm2, osnd⟩
    cases osnd with
    | none => rfl
    | some e =>
      rw [happ] at hap2
      exact absurd hap2 (by simp)
  rw [hexec]
  set cm' := (applyPhase noFailEnv (scanPlanned s files cm) cm).1 with hcm'
  rw [scanPlanned]
  rw [List.filterMap_eq_nil_iff]
  intro f hf
  by_cases hex : ∃ p ∈ scanPlanned s files cm, p.1.path = f.path
  · obtain ⟨p, hp, hpq, hval⟩ :=
      applyPhase_all_written noFailEnv (scanPlanned s files cm)
        (fun p _ => rfl) cm f.path hex
    have hmark : hasNamespaceMetadata (cm' f.path) = true := by
      rw [← hcm'] at hval
      rw [hval]
      exact scanPlanned_marker s files cm p hp
    simp [hmark]
  · have huntouched : cm' f.path = cm f.path := by
      rw [hcm']
      exact applyPhase_untouched noFailEnv _ cm f.path
        fun p hp hpq => hex ⟨p, hp, hpq⟩
    rw [huntouched]
    by_cases hm : hasNamespaceMetadata (cm f.path) = true
    · simp [hm]
    · by_cases hg : generateNamespace s f = ""
      · simp [hm, hg]
      · exact absurd
          ⟨(f, namespaceMetadata (generateNamespace s f) ++ cm f.path),
            List.mem_filterMap.mpr
              ⟨f, hf, by rw [if_neg (by simpa using hm), if_neg hg]⟩, rfl⟩
          hex

/-! ## Properties of the slash cleanup -/

theorem chain'_collapseAfter (l : List Char) :
    ∀ prev, List.Chain' (fun a b => ¬(a = '/' ∧ b = '/'))
      (prev :: collapseAfter prev l) := by
  induction l with
  | nil =>
    intro prev
    exact List.chain'_singleton prev
  | cons c r ih =>
    intro prev
    by_cases h : (prev = '/' && c = '/') = true
    · rw [show collapseAfter prev (c :: r) = collapseAfter prev r from by
        simp [collapseAfter, h]]
      exact ih prev
    · rw [show collapseAfter prev (c :: r) = c :: collapseAfter c r from by
        simp only [collapseAfter]
        rw [if_neg (by simpa using h)]]
      refine List.chain'_cons.mpr ⟨?_, ih c⟩
      rintro ⟨rfl, rfl⟩
      simp at h

theorem chain'_collapseSlashes (l : List Char) :
    List.Chain' (fun a b => ¬(a = '/' ∧ b = '/')) (collapseSlashes l) := by
  cases l with
  | nil => exact List.chain'_nil
  | cons c r => exact chain'_collapseAfter r c

theorem dropLeadSlash_head (l : List Char)
    (h : List.Chain' (fun a b => ¬(a = '/' ∧ b = '/')) l) :
    (dropLeadSlash l).head? ≠ some '/' ∧
      List.Chain' (fun a b => ¬(a = '/' ∧ b = '/')) (dropLeadSlash l) := by
  cases l with
  | nil => exact ⟨by simp [dropLeadSlash], List.chain'_nil⟩
  | cons c rest =>
    by_cases hc : c = '/'
    · subst hc
      rw [show dropLeadSlash ('/' :: rest) = rest from by simp [dropLeadSlash]]
      refine ⟨?_, h.tail⟩
      cases rest with
      | nil => simp
      | cons d t =>
        have hr : ¬('/' = '/' ∧ d = '/') := (List.chain'_cons.mp h).1
        simp only [List.head?_cons, ne_eq, Option.some.injEq]
        intro hd
        exact hr ⟨rfl, hd⟩
    · rw [show dropLeadSlash (c :: rest) = c :: rest from by simp [dropLeadSlash, hc]]
      exact ⟨by simpa using hc, h⟩

theorem dropTrailSlash_eq_reverse (l : List Char) :
    dropTrailSlash l = (dropLeadSlash l.reverse).reverse := by
  cases h : l.reverse with
  | nil =>
    have : l = [] := by simpa [List.reverse_eq_nil_iff] using h
    subst this
    rfl
  | cons c t =>
    have hl : l = t.reverse ++ [c] := by
      rw [← List.reverse_reverse l, h, List.reverse_cons]
    subst hl
    by_cases hc : c = '/'
    · subst hc
      rw [show dropTrailSlash (t.reverse ++ ['/']) = t.reverse from by
        simp [dropTrailSlash, List.getLast?_concat, List.dropLast_concat]]
      rw [show dropLeadSlash ('/' :: t) = t from by simp [dropLeadSlash]]
    · rw [show dropTrailSlash (t.reverse ++ [c]) = t.reverse ++ [c] from by
        simp [dropTrailSlash, List.getLast?_concat, hc]]
      rw [show dropLeadSlash (c :: t) = c :: t from by simp [dropLeadSlash, hc]]
      rw [List.reverse_cons]

theorem dropTrailSlash_getLast (l : List Char)
    (h : List.Chain' (fun a b => ¬(a = '/' ∧ b = '/')) l) :
    (dropTrailSlash l).getLast? ≠ some '/' ∧
      List.Chain' (fun a b => ¬(a = '/' ∧ b = '/')) (dropTrailSlash l) := by
  have hsymm : ∀ a b : Char, ¬(a = '/' ∧ b = '/') → ¬(b = '/' ∧ a = '/') :=
    fun a b hab ⟨h1, h2⟩ => hab ⟨h2, h1⟩
  have hrev : List.Chain' (fun a b => ¬(a = '/' ∧ b = '/')) l.reverse :=
    List.chain'_reverse.mpr (List.Chain'.imp hsymm h)
  have hd := dropLeadSlash_head l.reverse hrev
  rw [dropTrailSlash_eq_reverse]
  constructor
  · rw [List.getLast?_reverse]
    exact hd.1
  · exact List.chain'_reverse.mpr (List.Chain'.imp hsymm hd.2)

theorem dropTrailSlash_head (l : List Char) (h : l.head? ≠ some '/') :
    (dropTrailSlash l).head? ≠ some '/' := by
  cases l with
  | nil => simp [dropTrailSlash]
  | cons x t =>
    cases hg : (x :: t).getLast? with
    | none =>
      rw [show dropTrailSlash (x :: t) = x :: t from by
        unfold dropTrailSlash
        rw [hg]]
      exact h
    | some c =>
      have hred : dropTrailSlash (x :: t)
          = if c = '/' then (x :: t).dropLast else x :: t := by
        unfold dropTrailSlash
        rw [hg]
      rw [hred]
      by_cases hc : c = '/'
      · rw [if_pos hc]
        cases t with
        | nil => simp
        | cons y t' =>
          rw [List.dropLast_cons₂]
          simpa using h
      · rw [if_neg hc]
        exact h

/-- The cleanup pipeline yields a value with no doubled, no leading and no
trailing slash. -/
theorem stripEdgeSlashes_collapseSlashes_props (x : List Char) :
    List.Chain' (fun a b => ¬(a = '/' ∧ b = '/'))
      (stripEdgeSlashes (collapseSlashes x)) ∧
    (stripEdgeSlashes (collapseSlashes x)).head? ≠ some '/' ∧
    (stripEdgeSlashes (collapseSlashes x)).getLast? ≠ some '/' := by
  have hc := chain'_collapseSlashes x
  have hd := dropLeadSlash_head (collapseSlashes x) hc
  have ht := dropTrailSlash_getLast (dropLeadSlash (collapseSlashes x)) hd.2
  exact ⟨ht.2, dropTrailSlash_head _ hd.1, ht.1⟩

/-! ## First-occurrence versus every-occurrence substitution -/

theorem countOcc_drop_le (pat : List Char) :
    ∀ (n : Nat) (l : List Char), countOcc pat (l.drop n) ≤ countOcc pat l := by
  intro n
  induction n with
  | zero => intro l; simp
  | succ m ih =>
    intro l
    cases l with
    | nil => simp
    | cons c r =>
      rw [List.drop_succ_cons]
      calc countOcc pat (r.drop m) ≤ countOcc pat r := ih r
        _ ≤ countOcc pat (c :: r) := by
          rw [countOcc]
          omega

theorem jsReplaceAll_of_countOcc_zero (pat repl : List Char) :
    ∀ l, countOcc pat l = 0 → jsReplaceAll pat repl l = l := by
  intro l
  induction l with
  | nil => intro _; simp [jsReplaceAll]
  | cons c r ih =>
    intro h
    rw [countOcc] at h
    cases hb : List.isPrefixOf pat (c :: r) with
    | true =>
      rw [hb] at h
      simp at h
    | false =>
      rw [hb] at h
      simp only [Bool.false_eq_true, if_false, Nat.zero_add] at h
      simp only [jsReplaceAll]
      rw [dif_neg (by simp [hb])]
      rw [ih h]

theorem jsReplaceFirst_eq_jsReplaceAll (pat repl : List Char) (hp : pat ≠ []) :
    ∀ l, countOcc pat l ≤ 1 → jsReplaceFirst pat repl l = jsReplaceAll pat repl l := by
  intro l
  induction l with
  | nil => intro _; simp [jsReplaceFirst, jsReplaceAll]
  | cons c r ih =>
    intro h
    by_cases hpre : List.isPrefixOf pat (c :: r) = true
    · rw [countOcc, if_pos hpre] at h
      have hr0 : countOcc pat r = 0 := by omega
      obtain ⟨p0, ps, rfl⟩ : ∃ p0 ps, pat = p0 :: ps := by
        cases pat with
        | nil => exact absurd rfl hp
        | cons p0 ps => exact ⟨p0, ps, rfl⟩
      have hdrop : (c :: r).drop (p0 :: ps).length = r.drop ps.length := by
        simp [List.drop_succ_cons]
      have hzero : countOcc (p0 :: ps) ((c :: r).drop (p0 :: ps).length) = 0 := by
        rw [hdrop]
        have := countOcc_drop_le (p0 :: ps) ps.length r
        omega
      simp only [jsReplaceFirst, jsReplaceAll]
      rw [if_pos hpre, dif_pos ⟨hp, hpre⟩,
        jsReplaceAll_of_countOcc_zero _ _ _ hzero]
    · rw [countOcc, if_neg (by simpa using hpre)] at h
      simp only [jsReplaceFirst, jsReplaceAll]
      rw [if_neg (by simpa using hpre), dif_neg (by simp [hpre])]
      rw [ih (by simpa using h)]

/-! ## Claim C5 -/

/-- Claim C5: `generateNamespace` returns the empty string for every note
whose parent-folder path is empty; its value never has a doubled, leading or
trailing slash (the collapse/strip cleanup); the spec's example note with
template `notes/{path}` yields `notes/Projects/MyProject`; and whenever each
placeholder occurs at most once at the point it is substituted, the code's
first-occurrence substitution agrees with the spec's substitute-everywhere
reading (`specComputeNamespaceValue`). -/
theorem computeNamespaceValue_spec :
    (∀ (s : LogseqNamespaceSettings) (f : NoteFile), f.folderPath = "" →
      generateNamespace s f = "") ∧
    (∀ (s : LogseqNamespaceSettings) (f : NoteFile),
      List.Chain' (fun a b => ¬(a = '/' ∧ b = '/')) (generateNamespace s f).data ∧
      (generateNamespace s f).data.head? ≠ some '/' ∧
      (generateNamespace s f).data.getLast? ≠ some '/') ∧
    generateNamespace { DEFAULT_SETTINGS with namespaceFormat := "notes/{path}" }
      ⟨"Projects/MyProject/notes.md", "notes", "Projects/MyProject"⟩
      = "notes/Projects/MyProject" ∧
    ∀ (s : LogseqNamespaceSettings) (f : NoteFile),
      f.folderPath ≠ "" →
      countOcc "{path}".data s.namespaceFormat.data ≤ 1 →
      countOcc "{name}".data
        (jsReplaceFirst "{path}".data f.folderPath.data s.namespaceFormat.data) ≤ 1 →
      generateNamespace s f = specComputeNamespaceValue s f := by
  refine ⟨?_, ?_, by decide, ?_⟩
  · intro s f h
    unfold generateNamespace
    rw [if_pos h]
  · intro s f
    by_cases h : f.folderPath = ""
    · rw [show generateNamespace s f = "" from by unfold generateNamespace; rw [if_pos h]]
      exact ⟨List.chain'_nil, by simp, by simp⟩
    · rw [show generateNamespace s f
          = ⟨stripEdgeSlashes (collapseSlashes
              (jsReplaceFirst "{name}".data f.basename.data
                (jsReplaceFirst "{path}".data f.folderPath.data
                  s.namespaceFormat.data)))⟩ from by
        unfold generateNamespace
        rw [if_neg h]]
      exact stripEdgeSlashes_collapseSlashes_props _
  · intro s f h hc1 hc2
    simp only [generateNamespace, specComputeNamespaceValue, if_neg h]
    rw [jsReplaceFirst_eq_jsReplaceAll "{name}".data f.basename.data (by decide) _ hc2]
    rw [jsReplaceFirst_eq_jsReplaceAll "{path}".data f.folderPath.data (by decide) _ hc1]

/-- Witness for claim C5 at the spec's example input. -/
theorem computeNamespaceValue_spec_witness :
    generateNamespace { DEFAULT_SETTINGS with namespaceFormat := "notes/{path}" }
      ⟨"Projects/MyProject/notes.md", "notes", "Projects/MyProject"⟩
      = specComputeNamespaceValue
          { DEFAULT_SETTINGS with namespaceFormat := "notes/{path}" }
          ⟨"Projects/MyProject/notes.md", "notes", "Projects/MyProject"⟩ :=
  computeNamespaceValue_spec.2.2.2
    { DEFAULT_SETTINGS with namespaceFormat := "notes/{path}" }
    ⟨"Projects/MyProject/notes.md", "notes", "Projects/MyProject"⟩
    (by decide) (by decide) (by decide)

/-! ## Occurrence infrastructure (for claim C10) -/

theorem occursAt_iff (pat l : List Char) (i : Nat) :
    occursAt pat l i ↔ pat <+: l.drop i := by
  unfold occursAt
  exact List.isPrefixOf_iff_prefix

theorem occursAt_getElem {pat l : List Char} {i : Nat} (h : occursAt pat l i) :
    ∀ k, k < pat.length → l[i + k]? = pat[k]? := by
  intro k hk
  obtain ⟨t, ht⟩ := (occursAt_iff pat l i).mp h
  have h1 : (l.drop i)[k]? = pat[k]? := by
    rw [← ht]
    exact List.getElem?_append_left hk
  rw [← List.getElem?_drop]
  exact h1

theorem containsSub_iff (pat l : List Char) :
    containsSub pat l = true ↔ ∃ i, occursAt pat l i := by
  induction l with
  | nil =>
    unfold containsSub
    constructor
    · intro h
      exact ⟨0, by unfold occursAt; simpa using h⟩
    · rintro ⟨i, hi⟩
      unfold occursAt at hi
      simpa [List.drop_nil] using hi
  | cons c r ih =>
    rw [show containsSub pat (c :: r)
        = (List.isPrefixOf pat (c :: r) || containsSub pat r) from rfl]
    constructor
    · intro h
      rcases Bool.or_eq_true .. |>.mp h with h1 | h1
      · exact ⟨0, by unfold occursAt; simpa using h1⟩
      · obtain ⟨i, hi⟩ := ih.mp h1
        exact ⟨i + 1, by unfold occursAt at hi ⊢; rwa [List.drop_succ_cons]⟩
    · rintro ⟨i, hi⟩
      refine Bool.or_eq_true .. |>.mpr ?_
      cases i with
      | zero =>
        unfold occursAt at hi
        rw [List.drop_zero] at hi
        exact Or.inl hi
      | succ i' =>
        unfold occursAt at hi
        rw [List.drop_succ_cons] at hi
        exact Or.inr (ih.mpr ⟨i', hi⟩)

theorem occursAt_append_left {pat a : List Char} (X : List Char) {i : Nat}
    (h : occursAt pat a i) : occursAt pat (a ++ X) i := by
  rw [occursAt_iff] at h ⊢
  rw [List.drop_append_eq_append_drop]
  exact h.trans (List.prefix_append _ _)

theorem occursAt_append_right {pat b : List Char} (X : List Char) {j : Nat}
    (h : occursAt pat b j) : occursAt pat (X ++ b) (X.length + j) := by
  rw [occursAt_iff] at h ⊢
  rw [List.drop_append_eq_append_drop, List.drop_eq_nil_of_le (by omega),
    List.nil_append, show X.length + j - X.length = j from by omega]
  exact h

theorem occursAt_of_append_left {pat a : List Char} (X : List Char) {i : Nat}
    (h : occursAt pat (a ++ X) i) (hle : i + pat.length ≤ a.length) :
    occursAt pat a i := by
  rw [occursAt_iff] at h ⊢
  rw [List.drop_append_of_le_length (by omega)] at h
  rw [List.prefix_iff_eq_take] at h ⊢
  rwa [List.take_append_of_le_length (by
    rw [List.length_drop]
    omega)] at h

theorem occursAt_of_append_right {pat b : List Char} (X : List Char) {i : Nat}
    (h : occursAt pat (X ++ b) i) (hge : X.length ≤ i) :
    occursAt pat b (i - X.length) := by
  rw [occursAt_iff] at h ⊢
  rwa [List.drop_append_eq_append_drop, List.drop_eq_nil_of_le hge,
    List.nil_append] at h

theorem countOcc_pos_of_occursAt {pat l : List Char} (hp : pat ≠ []) {i : Nat}
    (h : occursAt pat l i) : 1 ≤ countOcc pat l := by
  induction l generalizing i with
  | nil =>
    unfold occursAt at h
    rw [List.drop_nil] at h
    exact absurd (List.prefix_nil.mp (List.isPrefixOf_iff_prefix.mp h)) hp
  | cons c r ih =>
    cases i with
    | zero =>
      unfold occursAt at h
      rw [List.drop_zero] at h
      rw [countOcc, if_pos h]
      omega
    | succ i' =>
      unfold occursAt at h
      rw [List.drop_succ_cons] at h
      have := ih (i := i') h
      rw [countOcc]
      omega

theorem countOcc_one_exists {pat l : List Char} (h : 1 ≤ countOcc pat l) :
    ∃ i, occursAt pat l i := by
  induction l with
  | nil => simp [countOcc] at h
  | cons c r ih =>
    rw [countOcc] at h
    by_cases hpre : List.isPrefixOf pat (c :: r) = true
    · exact ⟨0, by unfold occursAt; rwa [List.drop_zero]⟩
    · rw [if_neg (by simpa using hpre)] at h
      obtain ⟨i, hi⟩ := ih (by omega)
      exact ⟨i + 1, by unfold occursAt at hi ⊢; rwa [List.drop_succ_cons]⟩

theorem countOcc_two_exists {pat l : List Char} (h2 : 2 ≤ countOcc pat l) :
    ∃ i j, i < j ∧ occursAt pat l i ∧ occursAt pat l j := by
  induction l with
  | nil => simp [countOcc] at h2
  | cons c r ih =>
    rw [countOcc] at h2
    by_cases hpre : List.isPrefixOf pat (c :: r) = true
    · rw [if_pos hpre] at h2
      obtain ⟨i, hi⟩ := countOcc_one_exists (show 1 ≤ countOcc pat r by omega)
      refine ⟨0, i + 1, by omega, ?_, ?_⟩
      · unfold occursAt
        rwa [List.drop_zero]
      · unfold occursAt at hi ⊢
        rwa [List.drop_succ_cons]
    · rw [if_neg (by simpa using hpre)] at h2
      obtain ⟨i, j, hij, hi, hj⟩ := ih (by omega)
      refine ⟨i + 1, j + 1, by omega, ?_, ?_⟩
      · unfold occursAt at hi ⊢
        rwa [List.drop_succ_cons]
      · unfold occursAt at hj ⊢
        rwa [List.drop_succ_cons]

theorem countOcc_two_of_occursAt {pat l : List Char} (hp : pat ≠ []) :
    ∀ {i j : Nat}, i < j → occursAt pat l i → occursAt pat l j →
      2 ≤ countOcc pat l := by
  induction l with
  | nil =>
    intro i j _ _ hj
    unfold occursAt at hj
    rw [List.drop_nil] at hj
    exact absurd (List.prefix_nil.mp (List.isPrefixOf_iff_prefix.mp hj)) hp
  | cons c r ih =>
    intro i j hij hi hj
    cases i with
    | zero =>
      unfold occursAt at hi
      rw [List.drop_zero] at hi
      obtain ⟨j', rfl⟩ : ∃ j', j = j' + 1 := ⟨j - 1, by omega⟩
      unfold occursAt at hj
      rw [List.drop_succ_cons] at hj
      have := countOcc_pos_of_occursAt hp (i := j') hj
      rw [countOcc, if_pos hi]
      omega
    | succ i' =>
      obtain ⟨j', rfl⟩ : ∃ j', j = j' + 1 := ⟨j - 1, by omega⟩
      unfold occursAt at hi hj
      rw [List.drop_succ_cons] at hi hj
      have := ih (by omega : i' < j') hi hj
      rw [countOcc]
      omega

/-! ## Overlap analysis for the two placeholder patterns -/

theorem pathPat_no_self_overlap {l : List Char} {i j : Nat}
    (hi : occursAt "{path}".data l i) (hj : occursAt "{path}".data l j)
    (hij : i < j) : i + 6 ≤ j := by
  by_contra hcon
  obtain ⟨d, rfl⟩ : ∃ d, j = i + d + 1 := ⟨j - i - 1, by omega⟩
  have hd4 : d ≤ 4 := by omega
  have e1 := occursAt_getElem hi (d + 1) (by
      have h6 : ("{path}".data).length = 6 := rfl
      omega)
  have e2 := occursAt_getElem hj 0 (by decide)
  rw [Nat.add_zero] at e2
  have hval : ("{path}".data)[d + 1]? = some '{' := by
    rw [← e1, show i + (d + 1) = i + d + 1 from by omega, e2]
    decide
  interval_cases d <;> exact absurd hval (by decide)

theorem namePat_no_self_overlap {l : List Char} {i j : Nat}
    (hi : occursAt "{name}".data l i) (hj : occursAt "{name}".data l j)
    (hij : i < j) : i + 6 ≤ j := by
  by_contra hcon
  obtain ⟨d, rfl⟩ : ∃ d, j = i + d + 1 := ⟨j - i - 1, by omega⟩
  have hd4 : d ≤ 4 := by omega
  have e1 := occursAt_getElem hi (d + 1) (by
      have h6 : ("{name}".data).length = 6 := rfl
      omega)
  have e2 := occursAt_getElem hj 0 (by decide)
  rw [Nat.add_zero] at e2
  have hval : ("{name}".data)[d + 1]? = some '{' := by
    rw [← e1, show i + (d + 1) = i + d + 1 from by omega, e2]
    decide
  interval_cases d <;> exact absurd hval (by decide)

theorem pathPat_namePat_disjoint {l : List Char} {i j : Nat}
    (hi : occursAt "{path}".data l i) (hj : occursAt "{name}".data l j) :
    i + 6 ≤ j ∨ j + 6 ≤ i := by
  by_contra hcon
  push_neg at hcon
  obtain ⟨h1, h2⟩ := hcon
  rcases Nat.lt_trichotomy i j with hlt | rfl | hgt
  · obtain ⟨d, rfl⟩ : ∃ d, j = i + d + 1 := ⟨j - i - 1, by omega⟩
    have hd4 : d ≤ 4 := by omega
    have e1 := occursAt_getElem hi (d + 1) (by
        have h6 : ("{path}".data).length = 6 := rfl
        omega)
    have e2 := occursAt_getElem hj 0 (by decide)
    rw [Nat.add_zero] at e2
    have hval : ("{path}".data)[d + 1]? = some '{' := by
      rw [← e1, show i + (d + 1) = i + d + 1 from by omega, e2]
      decide
    interval_cases d <;> exact absurd hval (by decide)
  · have e1 := occursAt_getElem hi 1 (by decide)
    have e2 := occursAt_getElem hj 1 (by decide)
    rw [e1] at e2
    exact absurd e2 (by decide)
  · obtain ⟨d, rfl⟩ : ∃ d, i = j + d + 1 := ⟨i - j - 1, by omega⟩
    have hd4 : d ≤ 4 := by omega
    have e1 := occursAt_getElem hj (d + 1) (by
        have h6 : ("{name}".data).length = 6 := rfl
        omega)
    have e2 := occursAt_getElem hi 0 (by decide)
    rw [Nat.add_zero] at e2
    have hval : ("{name}".data)[d + 1]? = some '{' := by
      rw [← e1, show j + (d + 1) = j + d + 1 from by omega, e2]
      decide
    interval_cases d <;> exact absurd hval (by decide)

/-! ## Decomposition of a first-occurrence replacement -/

theorem jsReplaceFirst_of_not_contains (pat repl : List Char) :
    ∀ l, containsSub pat l = false → jsReplaceFirst pat repl l = l := by
  intro l
  induction l with
  | nil => intro _; rfl
  | cons c r ih =>
    intro h
    rw [show containsSub pat (c :: r)
        = (List.isPrefixOf pat (c :: r) || containsSub pat r) from rfl] at h
    rcases Bool.or_eq_false_iff.mp h with ⟨h1, h2⟩
    rw [jsReplaceFirst, if_neg (by simp [h1]), ih h2]

theorem jsReplaceFirst_decomp (pat repl : List Char) (hp : pat ≠ []) :
    ∀ l, containsSub pat l = true →
      ∃ a b, l = a ++ pat ++ b ∧ (∀ i, i < a.length → ¬occursAt pat l i) ∧
        jsReplaceFirst pat repl l = a ++ repl ++ b := by
  intro l
  induction l with
  | nil =>
    intro h
    unfold containsSub at h
    exact absurd (List.prefix_nil.mp (List.isPrefixOf_iff_prefix.mp h)) hp
  | cons c r ih =>
    intro h
    by_cases hpre : List.isPrefixOf pat (c :: r) = true
    · obtain ⟨t, ht⟩ := List.isPrefixOf_iff_prefix.mp hpre
      refine ⟨[], t, by simp [← ht], fun i hi => by simp at hi, ?_⟩
      rw [jsReplaceFirst, if_pos hpre, ← ht, List.drop_left]
      simp
    · have hr : containsSub pat r = true := by
        rw [show containsSub pat (c :: r)
            = (List.isPrefixOf pat (c :: r) || containsSub pat r) from rfl] at h
        rcases Bool.or_eq_true .. |>.mp h with h1 | h1
        · exact absurd h1 hpre
        · exact h1
      obtain ⟨a, b, heq, hleft, hrepl⟩ := ih hr
      refine ⟨c :: a, b, by simp [heq], ?_, ?_⟩
      · intro i hi
        cases i with
        | zero =>
          intro hocc
          unfold occursAt at hocc
          rw [List.drop_zero] at hocc
          exact hpre hocc
        | succ i' =>
          intro hocc
          unfold occursAt at hocc
          rw [List.drop_succ_cons] at hocc
          exact hleft i' (by simpa using hi) (heq ▸ hocc)
      · rw [jsReplaceFirst, if_neg (by simp [hpre]), hrepl]
        simp

/-- Claim C10's general fact: `jsReplaceFirst` rewrites exactly the leftmost
occurrence and leaves everything after it untouched. -/
theorem jsReplaceFirst_leftmost (pat repl : List Char) (hp : pat ≠ []) :
    ∀ a b, (∀ i, i < a.length → ¬occursAt pat (a ++ pat ++ b) i) →
      jsReplaceFirst pat repl (a ++ pat ++ b) = a ++ repl ++ b := by
  intro a
  induction a with
  | nil =>
    intro b _
    obtain ⟨p0, ps, rfl⟩ : ∃ p0 ps, pat = p0 :: ps := by
      cases pat with
      | nil => exact absurd rfl hp
      | cons p0 ps => exact ⟨p0, ps, rfl⟩
    show jsReplaceFirst (p0 :: ps) repl (p0 :: (ps ++ b)) = repl ++ b
    rw [jsReplaceFirst]
    rw [if_pos (List.isPrefixOf_iff_prefix.mpr (by
      rw [← List.cons_append]
      exact List.prefix_append _ _))]
    rw [show (p0 :: ps).length = ps.length + 1 from rfl, List.drop_succ_cons,
      List.drop_left]
  | cons x a' ih =>
    intro b hyp
    have hnp : ¬List.isPrefixOf pat (x :: (a' ++ pat ++ b)) = true := by
      intro hpre
      refine hyp 0 (by simp) ?_
      unfold occursAt
      rw [List.drop_zero]
      show List.isPrefixOf pat (x :: (a' ++ pat ++ b)) = true
      exact hpre
    have hih := ih b fun i hi hocc => by
      refine hyp (i + 1) (by simpa using hi) ?_
      unfold occursAt at hocc ⊢
      show List.isPrefixOf pat (List.drop (i + 1) (x :: (a' ++ pat ++ b))) = true
      rwa [List.drop_succ_cons]
    show jsReplaceFirst pat repl (x :: (a' ++ pat ++ b)) = x :: (a' ++ repl ++ b)
    rw [jsReplaceFirst, if_neg hnp, hih]

/-! ## Survival of later placeholder occurrences -/

/-- If a pattern with no self-overlap occurs at least twice, some occurrence
survives the replacement of the first one. -/
theorem second_occ_survives_self {pat : List Char} (hp : pat ≠ [])
    (hover : ∀ (l : List Char) (i j : Nat), occursAt pat l i → occursAt pat l j →
      i < j → i + pat.length ≤ j)
    (repl l : List Char) (h2 : 2 ≤ countOcc pat l) :
    containsSub pat (jsReplaceFirst pat repl l) = true := by
  obtain ⟨i, j, hij, hi, hj⟩ := countOcc_two_exists h2
  have hcs : containsSub pat l = true := (containsSub_iff pat l).mpr ⟨i, hi⟩
  obtain ⟨a, b, heq, hleft, hrepl⟩ := jsReplaceFirst_decomp pat repl hp l hcs
  rw [hrepl]
  have hia : a.length ≤ i := by
    by_contra hlt
    exact hleft i (by omega) hi
  have hoccA : occursAt pat l a.length := by
    rw [heq, occursAt_iff, List.append_assoc, List.drop_left]
    exact List.prefix_append _ _
  have hsep : a.length + pat.length ≤ j := hover l a.length j hoccA hj (by omega)
  have hjb : occursAt pat b (j - (a ++ pat).length) := by
    refine occursAt_of_append_right (X := a ++ pat) ?_ (by rw [List.length_append]; omega)
    rw [← heq]
    exact hj
  refine (containsSub_iff _ _).mpr ⟨(a ++ repl).length + (j - (a ++ pat).length), ?_⟩
  exact occursAt_append_right (X := a ++ repl) hjb

/-- An occurrence of `{path}` survives replacing the first `{name}`. -/
theorem path_survives_name_replace (nm l : List Char)
    (h : containsSub "{path}".data l = true) :
    containsSub "{path}".data (jsReplaceFirst "{name}".data nm l) = true := by
  cases hcs : containsSub "{name}".data l with
  | false => rwa [jsReplaceFirst_of_not_contains _ _ _ hcs]
  | true =>
    obtain ⟨a, b, heq, hleft, hrepl⟩ :=
      jsReplaceFirst_decomp "{name}".data nm (by decide) l hcs
    rw [hrepl]
    obtain ⟨i, hi⟩ := (containsSub_iff _ _).mp h
    have hoccN : occursAt "{name}".data l a.length := by
      rw [heq, occursAt_iff, List.append_assoc, List.drop_left]
      exact List.prefix_append _ _
    rcases pathPat_namePat_disjoint hi hoccN with hle | hge
    · -- the {path} occurrence lies inside a
      have heq' : l = a ++ ("{name}".data ++ b) := by
        rw [heq, List.append_assoc]
      have hia : occursAt "{path}".data a i := by
        refine occursAt_of_append_left (X := "{name}".data ++ b) ?_ (by
          have h6 : ("{path}".data).length = 6 := rfl
          omega)
        rw [← heq']
        exact hi
      refine (containsSub_iff _ _).mpr ⟨i, ?_⟩
      rw [List.append_assoc]
      exact occursAt_append_left _ hia
    · -- the {path} occurrence lies inside b
      have hib : occursAt "{path}".data b (i - (a ++ "{name}".data).length) := by
        refine occursAt_of_append_right (X := a ++ "{name}".data) ?_ (by
          rw [List.length_append]
          have h6 : ("{name}".data).length = 6 := rfl
          omega)
        rw [← heq]
        exact hi
      refine (containsSub_iff _ _).mpr
        ⟨(a ++ nm).length + (i - (a ++ "{name}".data).length), ?_⟩
      exact occursAt_append_right (X := a ++ nm) hib

/-- Two `{name}` occurrences survive (as at least two occurrences) the
replacement of the first `{path}`. -/
theorem name_count_survives_path_replace (fold l : List Char)
    (h2 : 2 ≤ countOcc "{name}".data l) :
    2 ≤ countOcc "{name}".data (jsReplaceFirst "{path}".data fold l) := by
  cases hcs : containsSub "{path}".data l with
  | false => rwa [jsReplaceFirst_of_not_contains _ _ _ hcs]
  | true =>
    obtain ⟨a, b, heq, hleft, hrepl⟩ :=
      jsReplaceFirst_decomp "{path}".data fold (by decide) l hcs
    rw [hrepl]
    obtain ⟨i, j, hij, hi, hj⟩ := countOcc_two_exists h2
    have hoccP : occursAt "{path}".data l a.length := by
      rw [heq, occursAt_iff, List.append_assoc, List.drop_left]
      exact List.prefix_append _ _
    have h6p : ("{path}".data).length = 6 := rfl
    have h6n : ("{name}".data).length = 6 := rfl
    -- transport one {name} occurrence at position k of l into a ++ fold ++ b
    have transport : ∀ k, occursAt "{name}".data l k →
        (k + 6 ≤ a.length ∧ occursAt "{name}".data (a ++ fold ++ b) k) ∨
        (a.length + 6 ≤ k ∧ occursAt "{name}".data (a ++ fold ++ b)
          ((a ++ fold).length + (k - (a.length + 6)))) := by
      intro k hk
      rcases pathPat_namePat_disjoint hoccP hk with hle | hge
      · -- a.length + 6 ≤ k : occurrence inside b
        right
        refine ⟨hle, ?_⟩
        have hkb : occursAt "{name}".data b (k - (a ++ "{path}".data).length) := by
          refine occursAt_of_append_right (X := a ++ "{path}".data) ?_ (by
            rw [List.length_append]
            omega)
          rw [← heq]
          exact hk
        have := occursAt_append_right (X := a ++ fold) hkb
        rwa [show k - (a ++ "{path}".data).length = k - (a.length + 6) from by
          rw [List.length_append, h6p]] at this
      · -- k + 6 ≤ a.length : occurrence inside a
        left
        refine ⟨hge, ?_⟩
        have hka : occursAt "{name}".data a k := by
          refine occursAt_of_append_left (X := "{path}".data ++ b) ?_ (by omega)
          rw [List.append_assoc] at heq
          rw [← heq]
          exact hk
        rw [List.append_assoc]
        exact occursAt_append_left _ hka
    rcases transport i hi with ⟨hi6, hoi⟩ | ⟨hi6, hoi⟩ <;>
      rcases transport j hj with ⟨hj6, hoj⟩ | ⟨hj6, hoj⟩
    · exact countOcc_two_of_occursAt (by decide) hij hoi hoj
    · refine countOcc_two_of_occursAt (by decide) ?_ hoi hoj
      rw [List.length_append]
      omega
    · refine countOcc_two_of_occursAt (by decide) ?_ hoj hoi
      rw [List.length_append]
      omega
    · refine countOcc_two_of_occursAt (by decide) ?_ hoi hoj
      omega

/-! ## Slash-free substrings survive the cleanup -/

theorem containsSub_sandwich (pat u v : List Char) :
    containsSub pat (u ++ pat ++ v) = true := by
  refine (containsSub_iff _ _).mpr ⟨u.length, ?_⟩
  refine occursAt_append_left (X := v) ?_
  unfold occursAt
  rw [List.drop_left]
  exact List.isPrefixOf_iff_prefix.mpr (List.prefix_refl pat)

theorem isPrefixOf_collapseAfter (pat : List Char)
    (hsf : ∀ c ∈ pat, c ≠ '/') :
    ∀ (l : List Char) (prev : Char), List.isPrefixOf pat l = true →
      List.isPrefixOf pat (collapseAfter prev l) = true := by
  induction pat with
  | nil =>
    intro l prev _
    exact List.isPrefixOf_iff_prefix.mpr List.nil_prefix
  | cons p ps ih =>
    intro l prev hpre
    cases l with
    | nil => simp [List.isPrefixOf] at hpre
    | cons c r =>
      rw [show List.isPrefixOf (p :: ps) (c :: r) = ((p == c) && List.isPrefixOf ps r)
        from rfl, Bool.and_eq_true, beq_iff_eq] at hpre
      obtain ⟨rfl, hps⟩ := hpre
      have hc : p ≠ '/' := hsf p (List.mem_cons_self p ps)
      rw [collapseAfter, if_neg (by simp [hc])]
      rw [show List.isPrefixOf (p :: ps) (p :: collapseAfter p r)
        = ((p == p) && List.isPrefixOf ps (collapseAfter p r)) from rfl,
        Bool.and_eq_true, beq_iff_eq]
      exact ⟨rfl, ih (fun x hx => hsf x (List.mem_cons_of_mem p hx)) r p hps⟩

theorem containsSub_collapseAfter {pat : List Char} (hp : pat ≠ [])
    (hsf : ∀ c ∈ pat, c ≠ '/') :
    ∀ (l : List Char) (prev : Char), containsSub pat l = true →
      containsSub pat (collapseAfter prev l) = true := by
  intro l
  induction l with
  | nil =>
    intro prev h
    unfold containsSub at h
    exact absurd (List.prefix_nil.mp (List.isPrefixOf_iff_prefix.mp h)) hp
  | cons c r ih =>
    intro prev h
    rw [show containsSub pat (c :: r)
        = (List.isPrefixOf pat (c :: r) || containsSub pat r) from rfl] at h
    by_cases hdrop : (prev = '/' && c = '/') = true
    · rw [collapseAfter, if_pos hdrop]
      have hc : c = '/' := by
        rcases Bool.and_eq_true .. |>.mp hdrop with ⟨-, h2⟩
        simpa using h2
      rcases Bool.or_eq_true .. |>.mp h with h1 | h1
      · obtain ⟨p0, ps, rfl⟩ : ∃ p0 ps, pat = p0 :: ps := by
          cases pat with
          | nil => exact absurd rfl hp
          | cons p0 ps => exact ⟨p0, ps, rfl⟩
        rw [show List.isPrefixOf (p0 :: ps) (c :: r)
            = ((p0 == c) && List.isPrefixOf ps r) from rfl,
          Bool.and_eq_true, beq_iff_eq] at h1
        exact absurd (h1.1.trans hc) (hsf p0 (List.mem_cons_self p0 ps))
      · exact ih prev h1
    · rw [collapseAfter, if_neg hdrop]
      rcases Bool.or_eq_true .. |>.mp h with h1 | h1
      · have := isPrefixOf_collapseAfter pat hsf (c :: r) prev h1
        rw [collapseAfter, if_neg hdrop] at this
        rw [show containsSub pat (c :: collapseAfter c r)
            = (List.isPrefixOf pat (c :: collapseAfter c r)
                || containsSub pat (collapseAfter c r)) from rfl]
        exact Bool.or_eq_true .. |>.mpr (Or.inl this)
      · rw [show containsSub pat (c :: collapseAfter c r)
            = (List.isPrefixOf pat (c :: collapseAfter c r)
                || containsSub pat (collapseAfter c r)) from rfl]
        exact Bool.or_eq_true .. |>.mpr (Or.inr (ih c h1))

theorem containsSub_collapseSlashes {pat : List Char} (hp : pat ≠ [])
    (hsf : ∀ c ∈ pat, c ≠ '/') (l : List Char) (h : containsSub pat l = true) :
    containsSub pat (collapseSlashes l) = true := by
  cases l with
  | nil =>
    unfold containsSub at h
    exact absurd (List.prefix_nil.mp (List.isPrefixOf_iff_prefix.mp h)) hp
  | cons c r =>
    have hx : collapseSlashes (c :: r) = collapseAfter 'x' (c :: r) := by
      rw [collapseSlashes, collapseAfter, if_neg (by simp)]
    rw [hx]
    exact containsSub_collapseAfter hp hsf (c :: r) 'x' h

theorem containsSub_dropLeadSlash {pat : List Char} (hp : pat ≠ [])
    (hsf : ∀ c ∈ pat, c ≠ '/') (l : List Char) (h : containsSub pat l = true) :
    containsSub pat (dropLeadSlash l) = true := by
  cases l with
  | nil =>
    unfold containsSub at h
    exact absurd (List.prefix_nil.mp (List.isPrefixOf_iff_prefix.mp h)) hp
  | cons c r =>
    by_cases hc : c = '/'
    · rw [show dropLeadSlash (c :: r) = r from by simp [dropLeadSlash, hc]]
      rw [show containsSub pat (c :: r)
          = (List.isPrefixOf pat (c :: r) || containsSub pat r) from rfl] at h
      rcases Bool.or_eq_true .. |>.mp h with h1 | h1
      · obtain ⟨p0, ps, rfl⟩ : ∃ p0 ps, pat = p0 :: ps := by
          cases pat with
          | nil => exact absurd rfl hp
          | cons p0 ps => exact ⟨p0, ps, rfl⟩
        rw [show List.isPrefixOf (p0 :: ps) (c :: r)
            = ((p0 == c) && List.isPrefixOf ps r) from rfl,
          Bool.and_eq_true, beq_iff_eq] at h1
        exact absurd (h1.1.trans hc) (hsf p0 (List.mem_cons_self p0 ps))
      · exact h1
    · rwa [show dropLeadSlash (c :: r) = c :: r from by simp [dropLeadSlash, hc]]

theorem containsSub_dropTrailSlash {pat : List Char} (hp : pat ≠ [])
    (hsf : ∀ c ∈ pat, c ≠ '/') (l : List Char) (h : containsSub pat l = true) :
    containsSub pat (dropTrailSlash l) = true := by
  by_cases hlast : l.getLast? = some '/'
  · have hred : dropTrailSlash l = l.dropLast := by
      have h1 : dropTrailSlash l = if '/' = '/' then l.dropLast else l := by
        unfold dropTrailSlash
        rw [hlast]
      rwa [if_pos rfl] at h1
    rw [hred]
    obtain ⟨i, hocc⟩ := (containsSub_iff _ _).mp h
    obtain ⟨t, ht⟩ := (occursAt_iff pat l i).mp hocc
    have hl : l = l.take i ++ (pat ++ t) := by
      rw [ht, List.take_append_drop]
    rcases List.eq_nil_or_concat t with rfl | ⟨t0, x, rfl⟩
    · obtain ⟨y, hy⟩ : ∃ y, pat.getLast? = some y := by
        cases hpl : pat.getLast? with
        | none => exact absurd (List.getLast?_eq_none_iff.mp hpl) hp
        | some y => exact ⟨y, rfl⟩
      have : l.getLast? = some y := by
        rw [hl, List.getLast?_append, List.append_nil, hy]
        rfl
      rw [hlast] at this
      obtain rfl : y = '/' := by
        simpa using this.symm
      exact absurd rfl (hsf '/' (List.mem_of_mem_getLast? hy))
    · have hl2 : l = (l.take i ++ pat ++ t0) ++ [x] := by
        conv_lhs => rw [hl]
        simp [List.concat_eq_append, List.append_assoc]
      rw [hl2, List.dropLast_concat]
      exact containsSub_sandwich pat (l.take i) t0
  · have hred : dropTrailSlash l = l := by
      unfold dropTrailSlash
      cases hg : l.getLast? with
      | none => rfl
      | some c =>
        have hc : c ≠ '/' := fun hceq => hlast (by rw [← hceq]; exact hg)
        show (if c = '/' then l.dropLast else l) = l
        rw [if_neg hc]
    rwa [hred]

/-- Combined: a non-empty slash-free pattern occurring in a string still
occurs after the collapse/strip cleanup. -/
theorem containsSub_cleanup {pat : List Char} (hp : pat ≠ [])
    (hsf : ∀ c ∈ pat, c ≠ '/') (x : List Char) (h : containsSub pat x = true) :
    containsSub pat (stripEdgeSlashes (collapseSlashes x)) = true :=
  containsSub_dropTrailSlash hp hsf _
    (containsSub_dropLeadSlash hp hsf _ (containsSub_collapseSlashes hp hsf x h))

/-! ## Claim C10 -/

/-- Claim C10: template substitution replaces only the first occurrence of
each placeholder — `jsReplaceFirst` rewrites exactly the leftmost occurrence
and leaves everything after it literal — and for every template that contains
`{path}` (resp. `{name}`) more than once, a literal `{path}` (resp. `{name}`)
remains in the computed namespace value, surviving the slash cleanup. -/
theorem replaceFirst_only_first :
    (∀ (pat repl a b : List Char), pat ≠ [] →
      (∀ i, i < a.length → ¬occursAt pat (a ++ pat ++ b) i) →
      jsReplaceFirst pat repl (a ++ pat ++ b) = a ++ repl ++ b) ∧
    (∀ (s : LogseqNamespaceSettings) (f : NoteFile), f.folderPath ≠ "" →
      2 ≤ countOcc "{path}".data s.namespaceFormat.data →
      containsSub "{path}".data (generateNamespace s f).data = true) ∧
    (∀ (s : LogseqNamespaceSettings) (f : NoteFile), f.folderPath ≠ "" →
      2 ≤ countOcc "{name}".data s.namespaceFormat.data →
      containsSub "{name}".data (generateNamespace s f).data = true) ∧
    generateNamespace { DEFAULT_SETTINGS with namespaceFormat := "{path}.{path}" }
      ⟨"a/x.md", "x", "a"⟩ = "a.{path}" ∧
    generateNamespace { DEFAULT_SETTINGS with namespaceFormat := "{name}+{name}" }
      ⟨"a/x.md", "x", "a"⟩ = "x+{name}" := by
  refine ⟨fun pat repl a b hp hyp => jsReplaceFirst_leftmost pat repl hp a b hyp,
    ?_, ?_, by decide, by decide⟩
  · intro s f hfold h2
    rw [show generateNamespace s f
        = ⟨stripEdgeSlashes (collapseSlashes
            (jsReplaceFirst "{name}".data f.basename.data
              (jsReplaceFirst "{path}".data f.folderPath.data
                s.namespaceFormat.data)))⟩ from by
      unfold generateNamespace
      rw [if_neg hfold]]
    have hover : ∀ (l : List Char) (i j : Nat), occursAt "{path}".data l i →
        occursAt "{path}".data l j → i < j → i + ("{path}".data).length ≤ j := by
      intro l i j hi hj hij
      have := pathPat_no_self_overlap hi hj hij
      have h6 : ("{path}".data).length = 6 := rfl
      omega
    have c1 := second_occ_survives_self (by decide) hover f.folderPath.data
      s.namespaceFormat.data h2
    have c2 := path_survives_name_replace f.basename.data _ c1
    exact containsSub_cleanup (by decide) (by decide) _ c2
  · intro s f hfold h2
    rw [show generateNamespace s f
        = ⟨stripEdgeSlashes (collapseSlashes
            (jsReplaceFirst "{name}".data f.basename.data
              (jsReplaceFirst "{path}".data f.folderPath.data
                s.namespaceFormat.data)))⟩ from by
      unfold generateNamespace
      rw [if_neg hfold]]
    have hover : ∀ (l : List Char) (i j : Nat), occursAt "{name}".data l i →
        occursAt "{name}".data l j → i < j → i + ("{name}".data).length ≤ j := by
      intro l i j hi hj hij
      have := namePat_no_self_overlap hi hj hij
      have h6 : ("{name}".data).length = 6 := rfl
      omega
    have c1 := name_count_survives_path_replace f.folderPath.data
      s.namespaceFormat.data h2
    have c2 := second_occ_survives_self (by decide) hover f.basename.data _ c1
    exact containsSub_cleanup (by decide) (by decide) _ c2

/-- Witness for claim C10: only the bracketed occurrence between `ab` and
`cd` is replaced. -/
theorem replaceFirst_only_first_witness :
    jsReplaceFirst "{path}".data "X".data
      ("ab".data ++ "{path}".data ++ "cd".data)
      = "ab".data ++ "X".data ++ "cd".data :=
  replaceFirst_only_first.1 "{path}".data "X".data "ab".data "cd".data
    (by decide)
    (by
      intro i hi
      have h2 : ("ab".data).length = 2 := rfl
      rw [h2] at hi
      unfold occursAt
      interval_cases i <;> decide)

end LogseqNS
